import Mathlib

/-!
Verification development for the gocache repository (src/gocache.go).

The cache is embedded shallowly: Go time.Time values become natural numbers of
nanoseconds, the hash map data plus the container/list lru list (which the code
keeps in one-to-one correspondence) become a single Lean list of entries in
front-to-back LRU order, and the optional loader upfunc becomes an optional pure
function.  The concurrency-free operations (Put, Get, clearExpired, the body of
upValue, the no-inflight path of getData) are translated as state-passing
functions; the single-flight behaviour of getData under concurrent Get calls is
modelled separately as an interleaving small-step system.
-/

namespace GoCache

/-- Nanoseconds per second, mirroring Go time.Second. -/
def nsPerSecond : Nat := 1000000000

/-- The fixed grace window time.Second * 3 added to a stale heartbeat in Get
(gocache.go line 126). -/
def graceNs : Nat := 3 * nsPerSecond

/-- Embeds the Value struct (gocache.go lines 28-32): cache value with put
heartbeat.  Heartbeats are nanosecond timestamps modelled as Nat. -/
structure Value (K V : Type) where
  key : K
  value : V
  heartbeat : Nat
deriving DecidableEq

/-- Embeds the Cache struct (gocache.go lines 35-45).  The fields data (a map
from key to list element) and lru are kept in one-to-one correspondence by the
code, so both are modelled by the single list lru, ordered front (most recently
touched) to back (eviction candidate); a map access data[k] is the unique list
entry whose key field is k.  upfunc is an optional pure loader.  The mutex
fields and the sweeper interval carry no sequential content and are omitted. -/
structure Cache (K V : Type) where
  lru : List (Value K V)
  expire : Nat
  maxKeyCount : Int
  up : Option (K → V × Int)

variable {K V : Type} [DecidableEq K]

/-- Embeds New (gocache.go lines 48-55): empty map and list, zero
configuration. -/
def new (K V : Type) : Cache K V :=
  { lru := [], expire := 0, maxKeyCount := 0, up := none }

/-- Embeds SetExpire (gocache.go lines 58-60). -/
def setExpire (c : Cache K V) (e : Nat) : Cache K V :=
  { c with expire := e }

/-- Embeds SetMaxKeyCount (gocache.go lines 63-65). -/
def setMaxKeyCount (c : Cache K V) (cnt : Int) : Cache K V :=
  { c with maxKeyCount := cnt }

/-- Embeds SetUpFunc (gocache.go lines 68-70). -/
def setUpFunc (c : Cache K V) (f : K → V × Int) : Cache K V :=
  { c with up := some f }

/-- The map access e, ok := c.data[k]: the unique lru entry whose key is k
(first match; under the map/list correspondence keys are distinct). -/
def lookupE (c : Cache K V) (k : K) : Option (Value K V) :=
  c.lru.find? (fun e => e.key == k)

/-- The key set of the store, in LRU order (front first). -/
def keys (c : Cache K V) : List K :=
  c.lru.map (fun e => e.key)

/-- Heartbeat of the entry stored for k, when present. -/
def hbOf (c : Cache K V) (k : K) : Option Nat :=
  (lookupE c k).map (fun e => e.heartbeat)

/-- Value stored for k, when present. -/
def valOf (c : Cache K V) (k : K) : Option V :=
  (lookupE c k).map (fun e => e.value)

/-- Replace the first list element satisfying p by its image under f, leaving
everything else in place.  Models an in-place mutation of the element that a
map lookup returned. -/
def updateFirst (p : α → Bool) (f : α → α) : List α → List α
  | [] => []
  | x :: xs => if p x then f x :: xs else x :: updateFirst p f xs

/-- Embeds the insertion phase of Put (gocache.go lines 146-162): if the key
exists, update value and heartbeat in place and move its node to the front,
else push a fresh node at the front and insert it into the map. -/
def putNoEvict (c : Cache K V) (k : K) (v : V) (now : Nat) : Cache K V :=
  match c.lru.find? (fun e => e.key == k) with
  | some e =>
      { c with lru := { e with value := v, heartbeat := now } ::
          c.lru.eraseP (fun x => x.key == k) }
  | none =>
      { c with lru := ⟨k, v, now⟩ :: c.lru }

/-- Embeds Put (gocache.go lines 144-172): the insertion phase followed by the
eviction check of lines 164-171, which fires when a positive maxKeyCount is
configured and len(c.data) ≥ maxKeyCount, and then removes the back-most list
node and its map entry (a single entry, modelled by dropLast; the nil check on
lru.Back() is the match on getLast?). -/
def put (c : Cache K V) (k : K) (v : V) (now : Nat) : Cache K V :=
  if 0 < (putNoEvict c k v now).maxKeyCount ∧
      (putNoEvict c k v now).maxKeyCount ≤ (((putNoEvict c k v now).lru.length : Int)) then
    match (putNoEvict c k v now).lru.getLast? with
    | some _ =>
        { putNoEvict c k v now with lru := (putNoEvict c k v now).lru.dropLast }
    | none => putNoEvict c k v now
  else putNoEvict c k v now

/-- Embeds the no-inflight path of getData (gocache.go lines 175-200) run
without interference: invoke the loader, write the value back via Put iff its
status is 0, and return the loader pair verbatim. -/
def getDataSeq (c : Cache K V) (f : K → V × Int) (k : K) (now : Nat) :
    (Option V × Int) × Cache K V :=
  if (f k).2 = 0 then ((some (f k).1, (f k).2), put c k (f k).1 now)
  else ((some (f k).1, (f k).2), c)

/-- The in-place heartbeat mutation v.heartbeat = v.heartbeat.Add(time.Second*3)
of gocache.go line 126. -/
def bumpGrace (x : Value K V) : Value K V :=
  { x with heartbeat := x.heartbeat + graceNs }

/-- Embeds the found branch of Get (gocache.go lines 121-140) for the entry e
returned by the map lookup of key k.  now1 is the time.Now() of the first
expiry test (line 122), now2 that of the re-check under the write lock
(line 125).  The result is the returned (value, status) pair, the new cache
state, and a flag recording whether upValue launched a background refresh. -/
def getHit (c : Cache K V) (k : K) (e : Value K V) (now1 now2 : Nat) :
    (Option V × Int) × Cache K V × Bool :=
  if c.expire ≠ 0 ∧ e.heartbeat + c.expire < now1 then
    match c.up with
    | some _ =>
        if e.heartbeat + c.expire < now2 then
          ((some e.value, 0),
           { c with lru := updateFirst (fun x => x.key == k) bumpGrace c.lru },
           true)
        else ((some e.value, 0), c, false)
    | none => ((some e.value, -1), c, false)
  else
    if 0 < c.maxKeyCount then
      ((some e.value, 0),
       { c with lru := e :: c.lru.eraseP (fun x => x.key == k) }, false)
    else ((some e.value, 0), c, false)

/-- Embeds Get (gocache.go lines 109-141).  On a miss with a loader configured
it runs the sequential no-inflight getData path at time now2; otherwise a miss
returns (nil, -1).  On a hit it delegates to getHit. -/
def get (c : Cache K V) (k : K) (now1 now2 : Nat) :
    (Option V × Int) × Cache K V × Bool :=
  match c.lru.find? (fun e => e.key == k) with
  | none =>
      match c.up with
      | some f => ((getDataSeq c f k now2).1, (getDataSeq c f k now2).2, false)
      | none => ((none, -1), c, false)
  | some e => getHit c k e now1 now2

/-- Embeds the body of the goroutine spawned by upValue (gocache.go lines
203-210), run at the moment the loader returns: write the value back iff the
status is 0, else leave the store untouched. -/
def refreshComplete (c : Cache K V) (k : K) (now : Nat) : Cache K V :=
  match c.up with
  | some f => if (f k).2 = 0 then put c k (f k).1 now else c
  | none => c

/-- Embeds clearExpired (gocache.go lines 90-106): a no-op when no expire
duration is configured, otherwise remove every entry whose heartbeat + expire
is before now from both the map and the lru list (hence: keep exactly the
non-expired entries, in order). -/
def clearExpired (c : Cache K V) (now : Nat) : Cache K V :=
  if c.expire = 0 then c
  else { c with lru := c.lru.filter (fun e => !(decide (e.heartbeat + c.expire < now))) }

/-- Fold a sequence of Put calls over a cache; the value and timestamp of each
inserted key are given by the functions vf and tf. -/
def putMany (c : Cache K V) (vf : K → V) (tf : K → Nat) (ks : List K) : Cache K V :=
  ks.foldl (fun c k => put c k (vf k) (tf k)) c

/-- The shape of the eviction step of Put (gocache.go lines 164-171) on a
given order list: drop the back-most node when the size condition fires. -/
def evictIf (M : Int) (l : List (Value K V)) : List (Value K V) :=
  if 0 < M ∧ M ≤ (l.length : Int) then l.dropLast else l

/-! Helper lemmas about the list-level operations. -/

theorem key_of_find?_eq {l : List (Value K V)} {k : K} {e : Value K V}
    (h : l.find? (fun x => x.key == k) = some e) : e.key = k := by
  have h2 := List.find?_some (p := fun x : Value K V => x.key == k) h
  exact eq_of_beq h2

theorem putNoEvict_eq (c : Cache K V) (k : K) (v : V) (now : Nat) :
    putNoEvict c k v now =
      { c with lru := ⟨k, v, now⟩ :: c.lru.eraseP (fun x => x.key == k) } := by
  unfold putNoEvict
  cases h : c.lru.find? (fun e => e.key == k) with
  | none =>
      have hnp : ∀ x ∈ c.lru, ¬((fun x : Value K V => x.key == k) x = true) :=
        List.find?_eq_none.mp h
      simp [List.eraseP_of_forall_not hnp]
  | some e =>
      have hk : e.key = k := key_of_find?_eq h
      cases e
      simp_all

theorem put_eq (c : Cache K V) (k : K) (v : V) (now : Nat) :
    put c k v now =
      { c with lru := (evictIf c.maxKeyCount
          (⟨k, v, now⟩ :: c.lru.eraseP (fun x => x.key == k))) } := by
  unfold put evictIf
  rw [putNoEvict_eq]
  dsimp only
  by_cases hc : 0 < c.maxKeyCount ∧
      c.maxKeyCount ≤
        (((⟨k, v, now⟩ :: c.lru.eraseP (fun x => x.key == k) :
            List (Value K V)).length : Nat) : Int)
  · rw [if_pos hc, if_pos hc]
    cases hgl : (⟨k, v, now⟩ :: c.lru.eraseP (fun x => x.key == k) :
        List (Value K V)).getLast? with
    | none => exact absurd (List.getLast?_eq_none_iff.mp hgl) (by simp)
    | some b => rfl
  · rw [if_neg hc, if_neg hc]

theorem putNoEvict_lru (c : Cache K V) (k : K) (v : V) (now : Nat) :
    (putNoEvict c k v now).lru =
      ⟨k, v, now⟩ :: c.lru.eraseP (fun x => x.key == k) := by
  rw [putNoEvict_eq]

theorem put_lru (c : Cache K V) (k : K) (v : V) (now : Nat) :
    (put c k v now).lru =
      evictIf c.maxKeyCount (⟨k, v, now⟩ :: c.lru.eraseP (fun x => x.key == k)) := by
  rw [put_eq]

theorem put_expire (c : Cache K V) (k : K) (v : V) (now : Nat) :
    (put c k v now).expire = c.expire := by
  rw [put_eq]

theorem put_maxKeyCount (c : Cache K V) (k : K) (v : V) (now : Nat) :
    (put c k v now).maxKeyCount = c.maxKeyCount := by
  rw [put_eq]

theorem put_up (c : Cache K V) (k : K) (v : V) (now : Nat) :
    (put c k v now).up = c.up := by
  rw [put_eq]

theorem find?_eraseP_ne {l : List (Value K V)} {k k2 : K} (h : k ≠ k2) :
    (l.eraseP (fun x => x.key == k)).find? (fun x => x.key == k2) =
      l.find? (fun x => x.key == k2) := by
  induction l with
  | nil => rfl
  | cons a as ih =>
      cases hak : (a.key == k) with
      | true =>
          have ha : a.key = k := eq_of_beq hak
          have ha2 : ¬((a.key == k2) = true) := by
            simp [ha]
            exact h
          rw [List.eraseP_cons, hak, cond_true,
            List.find?_cons_of_neg (p := fun x : Value K V => x.key == k2) _ ha2]
      | false =>
          rw [List.eraseP_cons, hak, cond_false]
          cases hak2 : (a.key == k2) with
          | true =>
              rw [List.find?_cons_of_pos (p := fun x : Value K V => x.key == k2) _ hak2,
                List.find?_cons_of_pos (p := fun x : Value K V => x.key == k2) _ hak2]
          | false =>
              have hn : ¬((a.key == k2) = true) := by simp [hak2]
              rw [List.find?_cons_of_neg (p := fun x : Value K V => x.key == k2) _ hn,
                List.find?_cons_of_neg (p := fun x : Value K V => x.key == k2) _ hn, ih]

theorem find?_dropLast {l : List α} {p : α → Bool} {x : α}
    (h : l.dropLast.find? p = some x) : l.find? p = some x := by
  by_cases hne : l = []
  · subst hne; simp at h
  · have hsplit := List.dropLast_append_getLast hne
    calc l.find? p = (l.dropLast ++ [l.getLast hne]).find? p := by rw [hsplit]
    _ = (l.dropLast.find? p).or (([l.getLast hne]).find? p) := List.find?_append
    _ = some x := by rw [h]; rfl

theorem mem_evictIf {M : Int} {l : List (Value K V)} {x : Value K V}
    (h : x ∈ evictIf M l) : x ∈ l := by
  unfold evictIf at h
  split at h
  · exact (List.dropLast_sublist l).subset h
  · exact h

theorem find?_evictIf_some {M : Int} {l : List (Value K V)} {p : Value K V → Bool}
    {x : Value K V} (h : (evictIf M l).find? p = some x) : l.find? p = some x := by
  unfold evictIf at h
  split at h
  · exact find?_dropLast h
  · exact h

theorem length_evictIf_le {M : Int} {l : List (Value K V)} :
    (evictIf M l).length ≤ l.length := by
  unfold evictIf
  split
  · simp [List.length_dropLast]
  · exact le_refl _

theorem lookupE_put_ne (c : Cache K V) {k k2 : K} (v : V) (now : Nat) (h : k2 ≠ k)
    {e : Value K V} (he : lookupE (put c k v now) k2 = some e) :
    lookupE c k2 = some e := by
  unfold lookupE at he ⊢
  rw [put_lru] at he
  have h1 := find?_evictIf_some he
  have hhead : ¬((fun x : Value K V => x.key == k2) ⟨k, v, now⟩ = true) := by
    simp
    exact fun hkk => h hkk.symm
  rw [List.find?_cons_of_neg (p := fun x : Value K V => x.key == k2) _ hhead] at h1
  rw [find?_eraseP_ne (fun hkk => h hkk.symm)] at h1
  exact h1

theorem lookupE_put_self (c : Cache K V) (k : K) (v : V) (now : Nat)
    (h : ¬(c.maxKeyCount = 1 ∧ c.lru.eraseP (fun x => x.key == k) = [])) :
    lookupE (put c k v now) k = some ⟨k, v, now⟩ := by
  unfold lookupE
  rw [put_lru]
  unfold evictIf
  have hhead : ((fun x : Value K V => x.key == k) ⟨k, v, now⟩ = true) := by simp
  split
  · next hcond =>
      cases hr : c.lru.eraseP (fun x => x.key == k) with
      | nil =>
          exfalso
          apply h
          refine ⟨?_, hr⟩
          rw [hr] at hcond
          simp at hcond
          omega
      | cons r rs =>
          have hd : (⟨k, v, now⟩ :: r :: rs : List (Value K V)).dropLast =
              ⟨k, v, now⟩ :: (r :: rs).dropLast := by simp
          rw [hd]
          exact List.find?_cons_of_pos (p := fun x : Value K V => x.key == k) _ hhead
  · exact List.find?_cons_of_pos (p := fun x : Value K V => x.key == k) _ hhead

/-! Claim C2: Put then Get before expiry. -/

/-- C2 (amended): for every key k and value v, if the configured time-to-live
has not elapsed since the Put at the moment Get re-reads the clock, the
sequence Put(k, v); Get(k) returns (v, Success = 0) — unless the configured
maximum size is exactly 1 and the Put left no other entry in the store, in
which case the Put itself immediately evicts the entry it just wrote (the
eviction of gocache.go line 164 fires as soon as len(data) ≥ maxKeyCount) and
the Get misses. -/
theorem c2_put_get_fresh (c : Cache K V) (k : K) (v : V) (tput now1 now2 : Nat)
    (hM : ¬(c.maxKeyCount = 1 ∧ c.lru.eraseP (fun x => x.key == k) = []))
    (hfresh : ¬(c.expire ≠ 0 ∧ tput + c.expire < now1)) :
    (get (put c k v tput) k now1 now2).1 = (some v, 0) := by
  have hl := lookupE_put_self c k v tput hM
  unfold lookupE at hl
  unfold get
  rw [hl]
  dsimp only
  unfold getHit
  rw [put_expire]
  split
  · next hcond => exact absurd (by simpa using hcond) hfresh
  · split <;> rfl

/-- Counterexample to C2 as stated: with maxKeyCount = 1 the Put immediately
evicts the entry it wrote, so the subsequent Get misses and returns the
not-found pair (nil, -1) instead of (v, 0). -/
theorem c2_counterexample :
    (get (put (setMaxKeyCount (new Nat Nat) 1) 0 7 0) 0 0 0).1 = (none, -1) ∧
    ¬((get (put (setMaxKeyCount (new Nat Nat) 1) 0 7 0) 0 0 0).1 =
        ((some 7 : Option Nat), 0)) := by
  constructor
  · decide
  · decide

/-- Concrete instance of c2_put_get_fresh: a cache with time-to-live 5 and no
size cap serves the value written at time 0 when read at times 3 and 4. -/
theorem c2_witness :
    (¬((setExpire (new Nat Nat) 5).maxKeyCount = 1 ∧
        (setExpire (new Nat Nat) 5).lru.eraseP (fun x => x.key == 0) = [])) ∧
    (¬((setExpire (new Nat Nat) 5).expire ≠ 0 ∧
        0 + (setExpire (new Nat Nat) 5).expire < 3)) ∧
    (get (put (setExpire (new Nat Nat) 5) 0 7 0) 0 3 4).1 = (some 7, 0) :=
  ⟨by decide, by decide,
    c2_put_get_fresh (setExpire (new Nat Nat) 5) 0 7 0 3 4 (by decide) (by decide)⟩

/-! Claim C3: the size bound and the one-entry eviction of Put. -/

/-- C3: with a positive configured maximum, if the store does not exceed the
maximum before a Put then it does not exceed it after the Put returns; and the
enforcement is the removal of exactly one entry, the back-most node of the LRU
list, when the post-insertion size reaches the maximum — never a batch (and no
removal when the size condition does not fire). -/
theorem c3_put_size_bound (c : Cache K V) (k : K) (v : V) (now : Nat)
    (hM : 0 < c.maxKeyCount) (hlen : (c.lru.length : Int) ≤ c.maxKeyCount) :
    ((put c k v now).lru.length : Int) ≤ c.maxKeyCount ∧
    (c.maxKeyCount ≤ ((putNoEvict c k v now).lru.length : Int) →
      (put c k v now).lru = (putNoEvict c k v now).lru.dropLast ∧
      (put c k v now).lru.length + 1 = (putNoEvict c k v now).lru.length) ∧
    (¬ c.maxKeyCount ≤ ((putNoEvict c k v now).lru.length : Int) →
      put c k v now = putNoEvict c k v now) := by
  have hE : (c.lru.eraseP (fun x => x.key == k)).length ≤ c.lru.length :=
    List.length_eraseP_le _
  refine ⟨?_, ?_, ?_⟩
  · rw [put_lru]
    unfold evictIf
    split
    · next hc =>
        simp only [List.length_dropLast, List.length_cons]
        omega
    · next hc =>
        simp only [List.length_cons]
        rw [not_and] at hc
        have := hc hM
        simp only [List.length_cons] at this
        omega
  · intro h2
    rw [putNoEvict_lru] at h2 ⊢
    constructor
    · rw [put_lru]
      unfold evictIf
      rw [if_pos ⟨hM, h2⟩]
    · rw [put_lru]
      unfold evictIf
      rw [if_pos ⟨hM, h2⟩]
      simp only [List.length_dropLast, List.length_cons]
      omega
  · intro h2
    rw [putNoEvict_lru] at h2
    rw [put_eq, putNoEvict_eq]
    unfold evictIf
    rw [if_neg (fun hc => h2 hc.2)]

/-- Concrete instance of c3_put_size_bound: a cache with maximum 3 holding two
entries stays within the bound across an inserting Put, and that Put evicts
exactly the back-most node. -/
def c3wCache : Cache Nat Nat :=
  { lru := [⟨1, 1, 0⟩, ⟨2, 2, 0⟩], expire := 0, maxKeyCount := 3, up := none }

theorem c3_witness :
    (0 < c3wCache.maxKeyCount) ∧ ((c3wCache.lru.length : Int) ≤ c3wCache.maxKeyCount) ∧
    (((put c3wCache 5 9 4).lru.length : Int) ≤ c3wCache.maxKeyCount ∧
      (c3wCache.maxKeyCount ≤ ((putNoEvict c3wCache 5 9 4).lru.length : Int) →
        (put c3wCache 5 9 4).lru = (putNoEvict c3wCache 5 9 4).lru.dropLast ∧
        (put c3wCache 5 9 4).lru.length + 1 = (putNoEvict c3wCache 5 9 4).lru.length) ∧
      (¬ c3wCache.maxKeyCount ≤ ((putNoEvict c3wCache 5 9 4).lru.length : Int) →
        put c3wCache 5 9 4 = putNoEvict c3wCache 5 9 4)) :=
  ⟨by decide, by decide, c3_put_size_bound c3wCache 5 9 4 (by decide) (by decide)⟩

/-! Claim C10: an update-Put still evicts the back-most node. -/

/-- C10: when Put updates a key that is already present (the entry count does
not grow) while a positive maximum is configured and the current size is at
least that maximum, the eviction step still removes the back-most node of the
LRU list: the store shrinks by one entry, and the final list is the updated
list (updated entry moved to front) with its last node dropped — so the victim
is a different key when other entries remain, and the freshly updated entry
itself when it is the only (hence back-most) node. -/
theorem c10_update_put_evicts (c : Cache K V) (k : K) (v : V) (now : Nat)
    (e : Value K V) (hfind : lookupE c k = some e) (hM : 0 < c.maxKeyCount)
    (hlen : c.maxKeyCount ≤ (c.lru.length : Int)) :
    (put c k v now).lru.length + 1 = c.lru.length ∧
    (put c k v now).lru =
      (⟨k, v, now⟩ :: c.lru.eraseP (fun x => x.key == k)).dropLast := by
  unfold lookupE at hfind
  have hmem : e ∈ c.lru := List.mem_of_find?_eq_some hfind
  have hpe : ((fun x : Value K V => x.key == k) e) = true :=
    List.find?_some (p := fun x : Value K V => x.key == k) hfind
  have herase : (c.lru.eraseP (fun x => x.key == k)).length = c.lru.length - 1 :=
    List.length_eraseP_of_mem hmem hpe
  have hpos : 0 < c.lru.length := List.length_pos_of_mem hmem
  have hcond : c.maxKeyCount ≤
      (((⟨k, v, now⟩ :: c.lru.eraseP (fun x => x.key == k) :
          List (Value K V)).length : Nat) : Int) := by
    simp only [List.length_cons]
    omega
  constructor
  · rw [put_lru]
    unfold evictIf
    rw [if_pos ⟨hM, hcond⟩]
    simp only [List.length_dropLast, List.length_cons]
    omega
  · rw [put_lru]
    unfold evictIf
    rw [if_pos ⟨hM, hcond⟩]

/-- Two concrete instances of c10_update_put_evicts: with two entries and
maximum 2, updating the front key deletes the other key; with a single entry
and maximum 1, the update-Put deletes the very entry it just updated. -/
def c10wA : Cache Nat Nat :=
  { lru := [⟨0, 5, 0⟩, ⟨1, 6, 0⟩], expire := 0, maxKeyCount := 2, up := none }

def c10wB : Cache Nat Nat :=
  { lru := [⟨0, 5, 0⟩], expire := 0, maxKeyCount := 1, up := none }

theorem c10_witness :
    ((put c10wA 0 7 1).lru.length + 1 = c10wA.lru.length ∧
      (put c10wA 0 7 1).lru =
        (⟨0, 7, 1⟩ :: c10wA.lru.eraseP (fun x => x.key == 0)).dropLast) ∧
    ((put c10wB 0 7 1).lru.length + 1 = c10wB.lru.length ∧
      (put c10wB 0 7 1).lru =
        (⟨0, 7, 1⟩ :: c10wB.lru.eraseP (fun x => x.key == 0)).dropLast) :=
  ⟨c10_update_put_evicts c10wA 0 7 1 ⟨0, 5, 0⟩ (by decide) (by decide) (by decide),
   c10_update_put_evicts c10wB 0 7 1 ⟨0, 5, 0⟩ (by decide) (by decide) (by decide)⟩

/-! Lemmas about updateFirst (the in-place heartbeat bump of the stale path). -/

theorem find?_updateFirst_self {l : List (Value K V)} {k : K} {e : Value K V}
    (h : l.find? (fun x => x.key == k) = some e) :
    (updateFirst (fun x => x.key == k) bumpGrace l).find? (fun x => x.key == k) =
      some (bumpGrace e) := by
  induction l with
  | nil => exact absurd h (by simp)
  | cons a as ih =>
      cases hak : ((fun x : Value K V => x.key == k) a) with
      | true =>
          rw [List.find?_cons_of_pos (p := fun x : Value K V => x.key == k) _ hak] at h
          injection h with h
          subst h
          unfold updateFirst
          rw [if_pos hak]
          have hb : ((fun x : Value K V => x.key == k) (bumpGrace a)) = true := hak
          rw [List.find?_cons_of_pos (p := fun x : Value K V => x.key == k) _ hb]
      | false =>
          have hn : ¬((fun x : Value K V => x.key == k) a = true) := by simp [hak]
          rw [List.find?_cons_of_neg (p := fun x : Value K V => x.key == k) _ hn] at h
          unfold updateFirst
          rw [if_neg (by simp [hak])]
          rw [List.find?_cons_of_neg (p := fun x : Value K V => x.key == k) _ hn]
          exact ih h

theorem find?_updateFirst_ne {l : List (Value K V)} {k k2 : K} (h : k ≠ k2) :
    (updateFirst (fun x => x.key == k) bumpGrace l).find? (fun x => x.key == k2) =
      l.find? (fun x => x.key == k2) := by
  induction l with
  | nil => rfl
  | cons a as ih =>
      cases hak : ((fun x : Value K V => x.key == k) a) with
      | true =>
          have ha : a.key = k := eq_of_beq hak
          have hn2 : ¬((fun x : Value K V => x.key == k2) a = true) := by
            simp [ha]
            exact h
          have hnb : ¬((fun x : Value K V => x.key == k2) (bumpGrace a) = true) := hn2
          unfold updateFirst
          rw [if_pos hak]
          rw [List.find?_cons_of_neg (p := fun x : Value K V => x.key == k2) _ hnb,
            List.find?_cons_of_neg (p := fun x : Value K V => x.key == k2) _ hn2]
      | false =>
          unfold updateFirst
          rw [if_neg (by simp [hak])]
          cases hak2 : ((fun x : Value K V => x.key == k2) a) with
          | true =>
              rw [List.find?_cons_of_pos (p := fun x : Value K V => x.key == k2) _ hak2,
                List.find?_cons_of_pos (p := fun x : Value K V => x.key == k2) _ hak2]
          | false =>
              have hn : ¬((fun x : Value K V => x.key == k2) a = true) := by simp [hak2]
              rw [List.find?_cons_of_neg (p := fun x : Value K V => x.key == k2) _ hn,
                List.find?_cons_of_neg (p := fun x : Value K V => x.key == k2) _ hn, ih]

theorem keys_updateFirst (l : List (Value K V)) (k : K) :
    (updateFirst (fun x => x.key == k) bumpGrace l).map (fun e => e.key) =
      l.map (fun e => e.key) := by
  induction l with
  | nil => rfl
  | cons a as ih =>
      unfold updateFirst
      split
      · rfl
      · simp only [List.map_cons, ih]

theorem mem_updateFirst {l : List α} {p : α → Bool} {f : α → α} {x : α}
    (h : x ∈ updateFirst p f l) :
    x ∈ l ∨ ∃ y, l.find? p = some y ∧ x = f y := by
  induction l with
  | nil => exact absurd h (by simp [updateFirst])
  | cons a as ih =>
      unfold updateFirst at h
      by_cases hp : p a = true
      · rw [if_pos hp] at h
        rcases List.mem_cons.mp h with h1 | h1
        · exact Or.inr ⟨a, List.find?_cons_of_pos _ hp, h1⟩
        · exact Or.inl (List.mem_cons_of_mem _ h1)
      · rw [if_neg hp] at h
        rcases List.mem_cons.mp h with h1 | h1
        · exact Or.inl (by rw [h1]; exact List.mem_cons_self _ _)
        · rcases ih h1 with h2 | ⟨y, hy, hxy⟩
          · exact Or.inl (List.mem_cons_of_mem _ h2)
          · exact Or.inr ⟨y, by rw [List.find?_cons_of_neg _ hp]; exact hy, hxy⟩

/-! Claim C5: stale hit with a loader: grace bump, async refresh, immediate
stale answer. -/

/-- C5: when Get finds an entry e for k that is expired at the first clock read
and a loader is configured, the expiry is re-checked against the second clock
read taken under the write lock (since clocks do not go backwards, it still
shows expired), the entry heartbeat is pushed forward by exactly the fixed
three-second grace window, a background refresh is launched (the returned
flag), and the call itself returns (staleValue, 0) immediately: the stored
values and the key order are untouched, independent of the loader outcome. -/
theorem c5_stale_hit_with_loader (c : Cache K V) (k : K) (e : Value K V)
    (f : K → V × Int) (now1 now2 : Nat) (k2 : K)
    (hfind : lookupE c k = some e) (hexp : c.expire ≠ 0)
    (hstale : e.heartbeat + c.expire < now1) (h12 : now1 ≤ now2)
    (hup : c.up = some f) :
    (get c k now1 now2).1 = (some e.value, 0) ∧
    (get c k now1 now2).2.2 = true ∧
    hbOf (get c k now1 now2).2.1 k = some (e.heartbeat + graceNs) ∧
    valOf (get c k now1 now2).2.1 k2 = valOf c k2 ∧
    keys (get c k now1 now2).2.1 = keys c := by
  unfold lookupE at hfind
  have hlt2 : e.heartbeat + c.expire < now2 := lt_of_lt_of_le hstale h12
  have hg : get c k now1 now2 =
      ((some e.value, 0),
       { c with lru := updateFirst (fun x => x.key == k) bumpGrace c.lru },
       true) := by
    unfold get
    rw [hfind]
    dsimp only
    unfold getHit
    rw [if_pos ⟨hexp, hstale⟩, hup]
    dsimp only
    rw [if_pos hlt2]
  rw [hg]
  refine ⟨rfl, rfl, ?_, ?_, ?_⟩
  · unfold hbOf lookupE
    dsimp only
    rw [find?_updateFirst_self hfind]
    rfl
  · by_cases hk2 : k = k2
    · subst hk2
      unfold valOf lookupE
      dsimp only
      rw [find?_updateFirst_self hfind, hfind]
      rfl
    · unfold valOf lookupE
      dsimp only
      rw [find?_updateFirst_ne hk2]
  · unfold keys
    dsimp only
    rw [keys_updateFirst]

/-- Concrete instance of c5_stale_hit_with_loader: with time-to-live one
second, an entry written at time 0 and read at two seconds gets its heartbeat
pushed to three seconds, a refresh is launched, and the stale value 7 is
returned with status 0. -/
def c5wCache : Cache Nat Nat :=
  { lru := [⟨0, 7, 0⟩], expire := nsPerSecond, maxKeyCount := 0,
    up := some (fun _ => (5, 0)) }

theorem c5_witness :
    lookupE c5wCache 0 = some ⟨0, 7, 0⟩ ∧
    ((get c5wCache 0 (2 * nsPerSecond) (2 * nsPerSecond)).1 = (some 7, 0) ∧
      (get c5wCache 0 (2 * nsPerSecond) (2 * nsPerSecond)).2.2 = true ∧
      hbOf (get c5wCache 0 (2 * nsPerSecond) (2 * nsPerSecond)).2.1 0 =
        some (0 + graceNs) ∧
      valOf (get c5wCache 0 (2 * nsPerSecond) (2 * nsPerSecond)).2.1 0 =
        valOf c5wCache 0 ∧
      keys (get c5wCache 0 (2 * nsPerSecond) (2 * nsPerSecond)).2.1 =
        keys c5wCache) :=
  ⟨by decide,
   c5_stale_hit_with_loader c5wCache 0 ⟨0, 7, 0⟩ (fun _ => (5, 0))
     (2 * nsPerSecond) (2 * nsPerSecond) 0 (by decide) (by decide) (by decide)
     (by decide) rfl⟩

/-! Claim C6: stale hit without a loader. -/

/-- C6: when Get finds an entry for k that has expired (heartbeat plus
time-to-live before the first clock read) and no loader is configured, it
returns the last written value together with the stale failure status -1 and
leaves the cache completely unchanged: only the status flips. -/
theorem c6_stale_no_loader (c : Cache K V) (k : K) (e : Value K V)
    (now1 now2 : Nat) (hfind : lookupE c k = some e) (hexp : c.expire ≠ 0)
    (hstale : e.heartbeat + c.expire < now1) (hup : c.up = none) :
    get c k now1 now2 = ((some e.value, -1), c, false) := by
  unfold lookupE at hfind
  unfold get
  rw [hfind]
  dsimp only
  unfold getHit
  rw [if_pos ⟨hexp, hstale⟩, hup]

/-- Concrete instance of c6_stale_no_loader: the value 7 written at time 0 is
still returned at two seconds, but with status -1. -/
def c6wCache : Cache Nat Nat :=
  { lru := [⟨0, 7, 0⟩], expire := nsPerSecond, maxKeyCount := 0, up := none }

theorem c6_witness :
    lookupE c6wCache 0 = some ⟨0, 7, 0⟩ ∧
    get c6wCache 0 (2 * nsPerSecond) (2 * nsPerSecond) =
      ((some 7, -1), c6wCache, false) :=
  ⟨by decide,
   c6_stale_no_loader c6wCache 0 ⟨0, 7, 0⟩ (2 * nsPerSecond) (2 * nsPerSecond)
     (by decide) (by decide) (by decide) rfl⟩

/-! Claim C7: the loader result is written back iff its status is success. -/

/-- C7: for both loader invocation sites — the miss path of getData and the
background refresh write-back of upValue — the (value, status) pair returned
by the loader is passed through verbatim to the miss-path caller, the value is
written into the store via Put exactly when the status is 0, and a non-zero
status leaves the cache unmodified.  When the write-back happens (status 0)
and the Put does not self-evict (maxKeyCount = 1 with an otherwise empty
store), the loaded value is subsequently stored under k. -/
theorem c7_loader_writeback_iff_success (c : Cache K V) (f : K → V × Int)
    (k : K) (now : Nat) (hup : c.up = some f) :
    (getDataSeq c f k now).1 = (some (f k).1, (f k).2) ∧
    ((f k).2 ≠ 0 → (getDataSeq c f k now).2 = c ∧ refreshComplete c k now = c) ∧
    ((f k).2 = 0 →
      (getDataSeq c f k now).2 = put c k (f k).1 now ∧
      refreshComplete c k now = put c k (f k).1 now ∧
      (¬(c.maxKeyCount = 1 ∧ c.lru.eraseP (fun x => x.key == k) = []) →
        valOf (getDataSeq c f k now).2 k = some (f k).1)) := by
  unfold getDataSeq refreshComplete
  rw [hup]
  dsimp only
  by_cases hr : (f k).2 = 0
  · rw [if_pos hr, if_pos hr]
    refine ⟨rfl, fun h0 => absurd hr h0, fun _ => ⟨rfl, rfl, fun hM => ?_⟩⟩
    unfold valOf
    rw [lookupE_put_self c k (f k).1 now hM]
    rfl
  · rw [if_neg hr, if_neg hr]
    exact ⟨rfl, fun _ => ⟨rfl, rfl⟩, fun h0 => absurd h0 hr⟩

/-- Two concrete instances of c7_loader_writeback_iff_success: a succeeding
loader (status 0) gets its value 7 stored; a failing loader (status -1) is
propagated verbatim and leaves the store untouched. -/
def c7wOk : Cache Nat Nat := setUpFunc (new Nat Nat) (fun _ => (7, 0))

def c7wFail : Cache Nat Nat := setUpFunc (new Nat Nat) (fun _ => (9, -1))

theorem c7_witness :
    ((getDataSeq c7wOk (fun _ => (7, 0)) 0 1).1 = (some 7, 0) ∧
      ((0 : Int) ≠ 0 → (getDataSeq c7wOk (fun _ => (7, 0)) 0 1).2 = c7wOk ∧
        refreshComplete c7wOk 0 1 = c7wOk) ∧
      ((0 : Int) = 0 →
        (getDataSeq c7wOk (fun _ => (7, 0)) 0 1).2 = put c7wOk 0 7 1 ∧
        refreshComplete c7wOk 0 1 = put c7wOk 0 7 1 ∧
        (¬(c7wOk.maxKeyCount = 1 ∧ c7wOk.lru.eraseP (fun x => x.key == 0) = []) →
          valOf (getDataSeq c7wOk (fun _ => (7, 0)) 0 1).2 0 = some 7))) ∧
    ((getDataSeq c7wFail (fun _ => (9, -1)) 0 1).1 = (some 9, -1) ∧
      ((-1 : Int) ≠ 0 → (getDataSeq c7wFail (fun _ => (9, -1)) 0 1).2 = c7wFail ∧
        refreshComplete c7wFail 0 1 = c7wFail) ∧
      ((-1 : Int) = 0 →
        (getDataSeq c7wFail (fun _ => (9, -1)) 0 1).2 = put c7wFail 0 9 1 ∧
        refreshComplete c7wFail 0 1 = put c7wFail 0 9 1 ∧
        (¬(c7wFail.maxKeyCount = 1 ∧
            c7wFail.lru.eraseP (fun x => x.key == 0) = []) →
          valOf (getDataSeq c7wFail (fun _ => (9, -1)) 0 1).2 0 = some 9))) :=
  ⟨c7_loader_writeback_iff_success c7wOk (fun _ => (7, 0)) 0 1 rfl,
   c7_loader_writeback_iff_success c7wFail (fun _ => (9, -1)) 0 1 rfl⟩

/-! Claim C8: one sweep removes exactly the expired entries. -/

/-- C8: a single run of the periodic sweep keeps an entry exactly when it was
present before and is not expired (heartbeat + expire not before now); in
particular it removes exactly the expired entries from the store (map and
order list are the single modelled list), and when no time-to-live is
configured the sweep is a no-op, returning the cache unchanged. -/
theorem c8_clearExpired_exact (c : Cache K V) (now : Nat) (e : Value K V) :
    (e ∈ (clearExpired c now).lru ↔
      e ∈ c.lru ∧ ¬(c.expire ≠ 0 ∧ e.heartbeat + c.expire < now)) ∧
    (c.expire = 0 → clearExpired c now = c) := by
  unfold clearExpired
  by_cases hz : c.expire = 0
  · rw [if_pos hz]
    exact ⟨by simp [hz], fun _ => rfl⟩
  · rw [if_neg hz]
    refine ⟨?_, fun h0 => absurd h0 hz⟩
    simp [List.mem_filter, hz]

/-- Concrete instance of c8_clearExpired_exact at a cache with time-to-live 3
and the entry with heartbeat 0, which a sweep at time 5 removes. -/
def c8wCache : Cache Nat Nat :=
  { lru := [⟨1, 10, 0⟩, ⟨2, 20, 5⟩], expire := 3, maxKeyCount := 0, up := none }

theorem c8_witness :
    ((⟨1, 10, 0⟩ : Value Nat Nat) ∈ (clearExpired c8wCache 5).lru ↔
      (⟨1, 10, 0⟩ : Value Nat Nat) ∈ c8wCache.lru ∧
        ¬(c8wCache.expire ≠ 0 ∧ 0 + c8wCache.expire < 5)) ∧
    (c8wCache.expire = 0 → clearExpired c8wCache 5 = c8wCache) :=
  c8_clearExpired_exact c8wCache 5 ⟨1, 10, 0⟩

/-! Claim C4: heartbeat monotonicity machinery.  Operations are timestamped
with the clock values of their time.Now() calls; WF says every stored
heartbeat is at most the current clock (clocks do not go backwards). -/

/-- The operations of the claim: Put, Get (which on a stale entry with a
loader bumps the heartbeat), and the background refresh write-back. -/
inductive Op (K V : Type) where
  | putOp (k : K) (v : V)
  | getOp (k : K)
  | refreshOp (k : K)

/-- Run one operation at clock values t1 (first time.Now()) and t2 (second
time.Now(), only used by Get) and keep the resulting cache state. -/
def opStep (c : Cache K V) : Op K V → Nat → Nat → Cache K V
  | Op.putOp k v, t1, _ => put c k v t1
  | Op.getOp k, t1, t2 => (get c k t1 t2).2.1
  | Op.refreshOp k, t1, _ => refreshComplete c k t1

/-- Clock values along a trace never decrease, starting from t. -/
def timesOK : Nat → List (Op K V × Nat × Nat) → Bool
  | _, [] => true
  | t, (_, t1, t2) :: rest => decide (t ≤ t1) && (decide (t1 ≤ t2) && timesOK t2 rest)

/-- Run a timestamped trace of operations. -/
def runOps (c : Cache K V) : List (Op K V × Nat × Nat) → Cache K V
  | [] => c
  | (o, t1, t2) :: rest => runOps (opStep c o t1 t2) rest

/-- Clock consistency: every stored heartbeat is at most the time t. -/
def WF (c : Cache K V) (t : Nat) : Prop :=
  ∀ e ∈ c.lru, e.heartbeat ≤ t

theorem WF_mono {c : Cache K V} {t t2 : Nat} (h : WF c t) (ht : t ≤ t2) :
    WF c t2 :=
  fun e he => le_trans (h e he) ht

theorem hbOf_le_of_WF {c : Cache K V} {t : Nat} {k : K} {hb : Nat}
    (hWF : WF c t) (h : hbOf c k = some hb) : hb ≤ t := by
  unfold hbOf lookupE at h
  cases hf : c.lru.find? (fun e => e.key == k) with
  | none => rw [hf] at h; exact absurd h (by simp)
  | some e =>
      rw [hf] at h
      have hm := List.mem_of_find?_eq_some hf
      have he := hWF e hm
      simp only [Option.map_some'] at h
      injection h with h
      omega

theorem hbOf_put_self_val {c : Cache K V} {k : K} {v : V} {tp : Nat} {hb2 : Nat}
    (h : hbOf (put c k v tp) k = some hb2) : hb2 = tp := by
  unfold hbOf lookupE at h
  rw [put_lru] at h
  unfold evictIf at h
  have hhead : ((fun x : Value K V => x.key == k) ⟨k, v, tp⟩ = true) := by simp
  split at h
  · cases hr : c.lru.eraseP (fun x => x.key == k) with
    | nil => rw [hr] at h; simp at h
    | cons r rs =>
        rw [hr] at h
        have hd : (⟨k, v, tp⟩ :: r :: rs : List (Value K V)).dropLast =
            ⟨k, v, tp⟩ :: (r :: rs).dropLast := by simp
        rw [hd, List.find?_cons_of_pos (p := fun x : Value K V => x.key == k) _ hhead] at h
        simp only [Option.map_some'] at h
        injection h with h
        omega
  · rw [List.find?_cons_of_pos (p := fun x : Value K V => x.key == k) _ hhead] at h
    simp only [Option.map_some'] at h
    injection h with h
    omega

theorem hbOf_put_ne {c : Cache K V} {k k2 : K} {v : V} {tp : Nat} {hb2 : Nat}
    (hne : k2 ≠ k) (h : hbOf (put c k v tp) k2 = some hb2) :
    hbOf c k2 = some hb2 := by
  unfold hbOf at h ⊢
  cases hf : lookupE (put c k v tp) k2 with
  | none => rw [hf] at h; exact absurd h (by simp)
  | some e2 =>
      rw [hf] at h
      rw [lookupE_put_ne c v tp hne hf]
      exact h

theorem put_facts (c : Cache K V) (k : K) (v : V) (tp t0 : Nat)
    (hWF : WF c t0) (ht : t0 ≤ tp) :
    WF (put c k v tp) tp ∧
    (∀ k2 hb hb2, hbOf c k2 = some hb → hbOf (put c k v tp) k2 = some hb2 →
      hb ≤ hb2) ∧
    (∀ k2 hb2, hbOf c k2 = none → hbOf (put c k v tp) k2 = some hb2 →
      hb2 = tp) := by
  refine ⟨?_, ?_, ?_⟩
  · intro e he
    rw [put_lru] at he
    rcases List.mem_cons.mp (mem_evictIf he) with h1 | h1
    · rw [h1]
    · exact le_trans (hWF e ((List.eraseP_sublist _).subset h1)) ht
  · intro k2 hb hb2 h1 h2
    by_cases hk : k2 = k
    · subst hk
      have := hbOf_put_self_val h2
      have := hbOf_le_of_WF hWF h1
      omega
    · have h3 := hbOf_put_ne hk h2
      rw [h1] at h3
      injection h3 with h3
      omega
  · intro k2 hb2 h1 h2
    by_cases hk : k2 = k
    · subst hk
      exact hbOf_put_self_val h2
    · have h3 := hbOf_put_ne hk h2
      rw [h1] at h3
      cases h3

theorem id_facts (c : Cache K V) (t0 t1 t2 : Nat) (hWF : WF c t0)
    (h01 : t0 ≤ t1) (h12 : t1 ≤ t2) :
    WF c t2 ∧
    (∀ k hb hb2, hbOf c k = some hb → hbOf c k = some hb2 → hb ≤ hb2) ∧
    (∀ k hb2, hbOf c k = none → hbOf c k = some hb2 → t1 ≤ hb2) := by
  refine ⟨WF_mono hWF (le_trans h01 h12), ?_, ?_⟩
  · intro k hb hb2 h1 h2
    rw [h1] at h2
    injection h2 with h2
    omega
  · intro k hb2 h1 h2
    rw [h1] at h2
    cases h2

theorem get_state_expire (c : Cache K V) (k : K) (now1 now2 : Nat) :
    ((get c k now1 now2).2.1).expire = c.expire := by
  unfold get
  cases hf : c.lru.find? (fun e => e.key == k) with
  | none =>
      cases hu : c.up with
      | none => rfl
      | some f =>
          dsimp only
          unfold getDataSeq
          split
          · exact put_expire c k (f k).1 now2
          · rfl
  | some e =>
      dsimp only
      unfold getHit
      split
      · cases hu : c.up with
        | none => rfl
        | some f => dsimp only; split <;> rfl
      · split <;> rfl

theorem opStep_expire (c : Cache K V) (o : Op K V) (t1 t2 : Nat) :
    (opStep c o t1 t2).expire = c.expire := by
  cases o with
  | putOp k v => exact put_expire c k v t1
  | getOp k => exact get_state_expire c k t1 t2
  | refreshOp k =>
      dsimp [opStep]
      unfold refreshComplete
      cases hu : c.up with
      | none => rfl
      | some f =>
          dsimp only
          split
          · exact put_expire c k (f k).1 t1
          · rfl

theorem opStep_facts (c : Cache K V) (o : Op K V) (t0 t1 t2 : Nat)
    (hgrace : c.expire = 0 ∨ graceNs ≤ c.expire)
    (hWF : WF c t0) (h01 : t0 ≤ t1) (h12 : t1 ≤ t2) :
    WF (opStep c o t1 t2) t2 ∧
    (∀ k hb hb2, hbOf c k = some hb → hbOf (opStep c o t1 t2) k = some hb2 →
      hb ≤ hb2) ∧
    (∀ k hb2, hbOf c k = none → hbOf (opStep c o t1 t2) k = some hb2 →
      t1 ≤ hb2) := by
  cases o with
  | putOp k2 v =>
      dsimp only [opStep]
      obtain ⟨hA, hB, hC⟩ := put_facts c k2 v t1 t0 hWF h01
      exact ⟨WF_mono hA h12, hB,
        fun k hb2 hn h2 => le_of_eq (hC k hb2 hn h2).symm⟩
  | refreshOp k2 =>
      dsimp only [opStep]
      unfold refreshComplete
      cases hu : c.up with
      | none => exact id_facts c t0 t1 t2 hWF h01 h12
      | some f =>
          dsimp only
          split
          · obtain ⟨hA, hB, hC⟩ := put_facts c k2 (f k2).1 t1 t0 hWF h01
            exact ⟨WF_mono hA h12, hB,
              fun k hb2 hn h2 => le_of_eq (hC k hb2 hn h2).symm⟩
          · exact id_facts c t0 t1 t2 hWF h01 h12
  | getOp k2 =>
      dsimp only [opStep]
      unfold get
      cases hf : c.lru.find? (fun e => e.key == k2) with
      | none =>
          cases hu : c.up with
          | none => exact id_facts c t0 t1 t2 hWF h01 h12
          | some f =>
              dsimp only
              unfold getDataSeq
              split
              · obtain ⟨hA, hB, hC⟩ :=
                  put_facts c k2 (f k2).1 t2 t0 hWF (le_trans h01 h12)
                refine ⟨hA, hB, fun k hb2 hn h2 => ?_⟩
                have := hC k hb2 hn h2
                omega
              · exact id_facts c t0 t1 t2 hWF h01 h12
      | some e =>
          dsimp only
          unfold getHit
          split
          · next hstale =>
              cases hu : c.up with
              | none => exact id_facts c t0 t1 t2 hWF h01 h12
              | some f =>
                  dsimp only
                  split
                  · next hlt2 =>
                      have hge : graceNs ≤ c.expire := by
                        cases hgrace with
                        | inl h0 => exact absurd h0 hstale.1
                        | inr h0 => exact h0
                      refine ⟨?_, ?_, ?_⟩
                      · intro x hx
                        dsimp only at hx
                        rcases mem_updateFirst hx with h1 | ⟨y, hy, hxy⟩
                        · exact le_trans (hWF x h1) (le_trans h01 h12)
                        · rw [hf] at hy
                          injection hy with hy
                          subst hy
                          rw [hxy]
                          unfold bumpGrace
                          dsimp only
                          omega
                      · intro k hb hb2 h1 h2
                        by_cases hk : k = k2
                        · subst hk
                          unfold hbOf lookupE at h1 h2
                          dsimp only at h2
                          rw [find?_updateFirst_self hf] at h2
                          rw [hf] at h1
                          simp only [Option.map_some'] at h1 h2
                          injection h1 with h1
                          injection h2 with h2
                          unfold bumpGrace at h2
                          dsimp only at h2
                          omega
                        · unfold hbOf lookupE at h1 h2
                          dsimp only at h2
                          rw [find?_updateFirst_ne (fun h0 => hk h0.symm)] at h2
                          rw [h1] at h2
                          injection h2 with h2
                          omega
                      · intro k hb2 h1 h2
                        by_cases hk : k = k2
                        · subst hk
                          unfold hbOf lookupE at h1
                          rw [hf] at h1
                          cases h1
                        · unfold hbOf lookupE at h1 h2
                          dsimp only at h2
                          rw [find?_updateFirst_ne (fun h0 => hk h0.symm)] at h2
                          rw [h1] at h2
                          cases h2
                  · exact id_facts c t0 t1 t2 hWF h01 h12
          · split
            · next hmax =>
                have hek : e.key = k2 := key_of_find?_eq hf
                have hmem : e ∈ c.lru := List.mem_of_find?_eq_some hf
                refine ⟨?_, ?_, ?_⟩
                · intro x hx
                  dsimp only at hx
                  rcases List.mem_cons.mp hx with h1 | h1
                  · rw [h1]
                    exact le_trans (hWF e hmem) (le_trans h01 h12)
                  · exact le_trans (hWF x ((List.eraseP_sublist _).subset h1))
                      (le_trans h01 h12)
                · intro k hb hb2 h1 h2
                  by_cases hk : k = k2
                  · subst hk
                    unfold hbOf lookupE at h1 h2
                    dsimp only at h2
                    have hhead : ((fun x : Value K V => x.key == k) e = true) :=
                      List.find?_some (p := fun x : Value K V => x.key == k) hf
                    rw [List.find?_cons_of_pos
                      (p := fun x : Value K V => x.key == k) _ hhead] at h2
                    rw [hf] at h1
                    rw [h1] at h2
                    injection h2 with h2
                    omega
                  · unfold hbOf lookupE at h1 h2
                    dsimp only at h2
                    have hhead : ¬((fun x : Value K V => x.key == k) e = true) := by
                      simp [hek]
                      exact fun h0 => hk h0.symm
                    rw [List.find?_cons_of_neg
                      (p := fun x : Value K V => x.key == k) _ hhead] at h2
                    rw [find?_eraseP_ne (fun h0 => hk h0.symm)] at h2
                    rw [h1] at h2
                    injection h2 with h2
                    omega
                · intro k hb2 h1 h2
                  by_cases hk : k = k2
                  · subst hk
                    unfold hbOf lookupE at h1
                    rw [hf] at h1
                    cases h1
                  · unfold hbOf lookupE at h1 h2
                    dsimp only at h2
                    have hhead : ¬((fun x : Value K V => x.key == k) e = true) := by
                      simp [hek]
                      exact fun h0 => hk h0.symm
                    rw [List.find?_cons_of_neg
                      (p := fun x : Value K V => x.key == k) _ hhead] at h2
                    rw [find?_eraseP_ne (fun h0 => hk h0.symm)] at h2
                    rw [h1] at h2
                    cases h2
            · exact id_facts c t0 t1 t2 hWF h01 h12

theorem trace_hb_lower (tr : List (Op K V × Nat × Nat)) :
    ∀ (c : Cache K V) (t0 : Nat), (c.expire = 0 ∨ graceNs ≤ c.expire) →
      WF c t0 → timesOK t0 tr = true →
      ∀ (k : K) (hb2 : Nat), hbOf (runOps c tr) k = some hb2 →
        ((∀ hb, hbOf c k = some hb → hb ≤ hb2) ∧
          (hbOf c k = none → t0 ≤ hb2)) := by
  induction tr with
  | nil =>
      intro c t0 _ _ _ k hb2 h2
      dsimp only [runOps] at h2
      constructor
      · intro hb h1
        rw [h1] at h2
        injection h2 with h2
        omega
      · intro h1
        rw [h1] at h2
        cases h2
  | cons head rest ih =>
      obtain ⟨o, t1, t2⟩ := head
      intro c t0 hgrace hWF hts k hb2 h2
      have hts2 : t0 ≤ t1 ∧ t1 ≤ t2 ∧ timesOK t2 rest = true := by
        simpa [timesOK, Bool.and_eq_true, decide_eq_true_eq] using hts
      obtain ⟨h01, h12, htr⟩ := hts2
      obtain ⟨hWF2, hmono, hfresh⟩ := opStep_facts c o t0 t1 t2 hgrace hWF h01 h12
      have hgrace2 : (opStep c o t1 t2).expire = 0 ∨
          graceNs ≤ (opStep c o t1 t2).expire := by
        rw [opStep_expire]
        exact hgrace
      dsimp only [runOps] at h2
      obtain ⟨IH1, IH2⟩ := ih (opStep c o t1 t2) t2 hgrace2 hWF2 htr k hb2 h2
      constructor
      · intro hb h1
        cases hnext : hbOf (opStep c o t1 t2) k with
        | some hbm => exact le_trans (hmono k hb hbm h1 hnext) (IH1 hbm hnext)
        | none =>
            have ha := IH2 hnext
            have hble := hbOf_le_of_WF hWF h1
            omega
      · intro h1
        cases hnext : hbOf (opStep c o t1 t2) k with
        | some hbm =>
            have ha := hfresh k hbm h1 hnext
            have hbb := IH1 hbm hnext
            omega
        | none =>
            have ha := IH2 hnext
            omega

/-- C4 (amended): across every timestamped sequence of operations (Put, Get on
a stale entry with a loader, background refresh write-back) with non-decreasing
clock values on a clock-consistent cache, every key heartbeat is monotonically
non-decreasing — provided the configured time-to-live is zero (no expiry) or at
least the three-second grace window.  (Without that proviso the claim fails:
see the counterexample, where the stale-path bump pushes a heartbeat beyond the
clock and a prompt refresh write-back then lowers it.) -/
theorem c4_heartbeat_monotone (c : Cache K V) (tr : List (Op K V × Nat × Nat))
    (t0 : Nat) (k : K) (hb hb2 : Nat)
    (hgrace : c.expire = 0 ∨ graceNs ≤ c.expire)
    (hWF : WF c t0) (hts : timesOK t0 tr = true)
    (h1 : hbOf c k = some hb) (h2 : hbOf (runOps c tr) k = some hb2) :
    hb ≤ hb2 :=
  (trace_hb_lower tr c t0 hgrace hWF hts k hb2 h2).1 hb h1

/-- The cache of the C4 counterexample: time-to-live one second (smaller than
the three-second grace window) and a loader that succeeds with value 5. -/
def c4xCache : Cache Nat Nat :=
  setExpire (setUpFunc (new Nat Nat) (fun _ => (5, 0))) nsPerSecond

/-- The C4 counterexample trace: put at time 0, stale Get at two seconds
(which bumps the heartbeat to three seconds, beyond the clock), then the
background refresh write-back lands, still at two seconds. -/
def c4xTrace : List (Op Nat Nat × Nat × Nat) :=
  [(Op.putOp 0 7, 0, 0), (Op.getOp 0, 2 * nsPerSecond, 2 * nsPerSecond),
   (Op.refreshOp 0, 2 * nsPerSecond, 2 * nsPerSecond)]

/-- Counterexample to C4 as stated: along the legitimately timestamped trace
c4xTrace (clock values never decrease), the heartbeat of key 0 is three
seconds after the stale Get and only two seconds after the refresh write-back
that follows it — the refresh sets the heartbeat to an earlier time than it
previously held. -/
theorem c4_counterexample :
    timesOK 0 c4xTrace = true ∧
    hbOf (runOps c4xCache (c4xTrace.take 2)) 0 = some (3 * nsPerSecond) ∧
    hbOf (runOps c4xCache c4xTrace) 0 = some (2 * nsPerSecond) ∧
    2 * nsPerSecond < 3 * nsPerSecond := by
  refine ⟨by decide, by decide, by decide, by decide⟩

/-- Concrete instance of c4_heartbeat_monotone: with time-to-live equal to the
grace window, the same put / stale-get / refresh pattern keeps the heartbeat
non-decreasing. -/
def c4wCache : Cache Nat Nat :=
  { lru := [⟨0, 7, 0⟩], expire := graceNs, maxKeyCount := 0,
    up := some (fun _ => (5, 0)) }

def c4wTrace : List (Op Nat Nat × Nat × Nat) :=
  [(Op.putOp 0 7, 0, 0), (Op.getOp 0, 4 * nsPerSecond, 4 * nsPerSecond),
   (Op.refreshOp 0, 5 * nsPerSecond, 5 * nsPerSecond)]

theorem c4_witness :
    (c4wCache.expire = 0 ∨ graceNs ≤ c4wCache.expire) ∧
    WF c4wCache 0 ∧ timesOK 0 c4wTrace = true ∧
    hbOf c4wCache 0 = some 0 ∧
    hbOf (runOps c4wCache c4wTrace) 0 = some (5 * nsPerSecond) ∧
    0 ≤ 5 * nsPerSecond :=
  ⟨Or.inr (by decide), (by unfold WF; decide), (by decide), (by decide),
   (by decide),
   c4_heartbeat_monotone c4wCache c4wTrace 0 0 0 (5 * nsPerSecond)
     (Or.inr (by decide)) (by unfold WF; decide) (by decide) (by decide)
     (by decide)⟩

/-! Claim C1: bounded size under a sequence of distinct insertions. -/

theorem take_absorb (a b : List α) (n : Nat) :
    (a ++ b.take n).take n = (a ++ b).take n := by
  rw [List.take_append_eq_append_take, List.take_append_eq_append_take,
    List.take_take, Nat.min_eq_left (Nat.sub_le _ _)]

theorem keys_length (c : Cache K V) : (keys c).length = c.lru.length := by
  simp [keys]

theorem keys_put_fresh (c : Cache K V) (k : K) (v : V) (t : Nat)
    (hnk : k ∉ keys c) (hM : 0 < c.maxKeyCount)
    (hlen : (keys c).length ≤ c.maxKeyCount.toNat - 1) :
    keys (put c k v t) = (k :: keys c).take (c.maxKeyCount.toNat - 1) := by
  have hnomatch : ∀ e ∈ c.lru, ¬((fun x : Value K V => x.key == k) e = true) := by
    intro e he hbeq
    exact hnk (by unfold keys; exact List.mem_map.mpr ⟨e, he, eq_of_beq hbeq⟩)
  have herase : c.lru.eraseP (fun x => x.key == k) = c.lru :=
    List.eraseP_of_forall_not hnomatch
  have hkeyslen : (keys c).length = c.lru.length := keys_length c
  have hMt : ((c.maxKeyCount.toNat : Nat) : Int) = c.maxKeyCount :=
    Int.toNat_of_nonneg (le_of_lt hM)
  unfold keys at *
  rw [put_lru, herase]
  unfold evictIf
  split
  · next hcond =>
      obtain ⟨h1, h2⟩ := hcond
      simp only [List.length_cons] at h2
      have hlenEq : c.lru.length = c.maxKeyCount.toNat - 1 := by omega
      rw [List.map_dropLast, List.dropLast_eq_take]
      simp only [List.map_cons, List.length_cons, List.length_map]
      rw [Nat.add_sub_cancel, hlenEq]
  · next hcond =>
      simp only [List.map_cons]
      symm
      apply List.take_of_length_le
      simp only [List.length_cons, List.length_map]
      have hnc : ¬(c.maxKeyCount ≤
          (((⟨k, v, t⟩ :: c.lru : List (Value K V)).length : Nat) : Int)) :=
        fun hx => hcond ⟨hM, hx⟩
      simp only [List.length_cons] at hnc
      omega

theorem keys_putMany (vf : K → V) (tf : K → Nat) :
    ∀ (ks : List K) (c : Cache K V), 0 < c.maxKeyCount → ks.Nodup →
      (∀ k2 ∈ ks, k2 ∉ keys c) →
      (keys c).length ≤ c.maxKeyCount.toNat - 1 →
      keys (putMany c vf tf ks) =
        (ks.reverse ++ keys c).take (c.maxKeyCount.toNat - 1) := by
  intro ks
  induction ks with
  | nil =>
      intro c hM _ _ hlen
      dsimp [putMany]
      symm
      exact List.take_of_length_le (by simpa using hlen)
  | cons k ks ih =>
      intro c hM hnd hfresh hlen
      have hk : k ∉ keys c := hfresh k (List.mem_cons_self _ _)
      obtain ⟨hknotin, hnd2⟩ := List.nodup_cons.mp hnd
      have hput := keys_put_fresh c k (vf k) (tf k) hk hM hlen
      have hM1 : (put c k (vf k) (tf k)).maxKeyCount = c.maxKeyCount :=
        put_maxKeyCount c k (vf k) (tf k)
      have hfresh2 : ∀ k2 ∈ ks, k2 ∉ keys (put c k (vf k) (tf k)) := by
        intro k2 hk2 hmem
        rw [hput] at hmem
        have hmem2 := List.take_subset _ _ hmem
        rcases List.mem_cons.mp hmem2 with h1 | h1
        · exact hknotin (h1 ▸ hk2)
        · exact hfresh k2 (List.mem_cons_of_mem _ hk2) h1
      have hlen2 : (keys (put c k (vf k) (tf k))).length ≤
          (put c k (vf k) (tf k)).maxKeyCount.toNat - 1 := by
        rw [hput, hM1]
        rw [List.length_take]
        omega
      have IH := ih (put c k (vf k) (tf k)) (by rw [hM1]; exact hM) hnd2
        hfresh2 hlen2
      show keys (putMany (put c k (vf k) (tf k)) vf tf ks) =
        ((k :: ks).reverse ++ keys c).take (c.maxKeyCount.toNat - 1)
      rw [IH, hM1, hput, take_absorb]
      congr 1
      rw [List.reverse_cons, List.append_assoc]
      rfl

/-- C1 (amended): for every positive configured maximum M, starting from an
empty cache, inserting M+K distinct keys (K > 0) via Put leaves exactly M - 1
entries present (the eviction of gocache.go line 164 fires as soon as the
post-insertion size reaches M, so the store steadies at M - 1), and the evicted
keys are the K+1 least-recently-touched ones at eviction time: the survivors
are exactly the last M - 1 keys inserted, in most-recent-first order. -/
theorem c1_bounded_insertions (M Kn : Nat) (vf : K → V) (tf : K → Nat)
    (ks : List K) (hM : 0 < M) (hK : 0 < Kn) (hlen : ks.length = M + Kn)
    (hnd : ks.Nodup) :
    keys (putMany (setMaxKeyCount (new K V) (M : Int)) vf tf ks) =
      (ks.drop (Kn + 1)).reverse ∧
    (putMany (setMaxKeyCount (new K V) (M : Int)) vf tf ks).lru.length =
      M - 1 := by
  have h0 := keys_putMany vf tf ks (setMaxKeyCount (new K V) (M : Int))
    (by simp [setMaxKeyCount, new]; omega) hnd
    (by intro k2 _ hmem; simp [keys, setMaxKeyCount, new] at hmem)
    (by simp [keys, setMaxKeyCount, new])
  have hkeys0 : keys (setMaxKeyCount (new K V) (M : Int)) = [] := by
    simp [keys, setMaxKeyCount, new]
  have hMt : ((M : Int)).toNat = M := by omega
  have hproj : (setMaxKeyCount (new K V) (M : Int)).maxKeyCount = (M : Int) := rfl
  rw [hkeys0, List.append_nil, hproj, hMt] at h0
  have hrev : ks.reverse.take (M - 1) = (ks.drop (Kn + 1)).reverse := by
    have h2 := List.reverse_take (l := ks.reverse) (n := M - 1)
    rw [List.reverse_reverse, List.length_reverse, hlen] at h2
    have h3 : M + Kn - (M - 1) = Kn + 1 := by omega
    rw [h3] at h2
    calc ks.reverse.take (M - 1)
        = ((ks.reverse.take (M - 1)).reverse).reverse := by
          rw [List.reverse_reverse]
      _ = (ks.drop (Kn + 1)).reverse := by rw [h2]
  constructor
  · rw [h0, hrev]
  · have h4 := keys_length (putMany (setMaxKeyCount (new K V) (M : Int)) vf tf ks)
    rw [h0] at h4
    rw [← h4]
    rw [List.length_take, List.length_reverse, hlen]
    omega

/-- Counterexample to C1 as stated: with maximum M = 1, inserting the K+M = 2
distinct keys 0 and 1 leaves 0 entries, not M = 1 — the eviction fires at
len(data) ≥ maxKeyCount, immediately after each insertion. -/
theorem c1_counterexample :
    (putMany (setMaxKeyCount (new Nat Nat) 1) (fun _ => 0) (fun _ => 0)
      [0, 1]).lru.length = 0 ∧
    (putMany (setMaxKeyCount (new Nat Nat) 1) (fun _ => 0) (fun _ => 0)
      [0, 1]).lru.length ≠ 1 :=
  ⟨by decide, by decide⟩

/-- Concrete instance of c1_bounded_insertions: maximum 2, three distinct keys
inserted, one entry (the last key) survives and the first two are evicted. -/
theorem c1_witness :
    (0 < 2) ∧ (0 < 1) ∧ ([0, 1, 2] : List Nat).length = 2 + 1 ∧
    ([0, 1, 2] : List Nat).Nodup ∧
    (keys (putMany (setMaxKeyCount (new Nat Nat) (2 : Int)) (fun _ => 5)
        (fun _ => 0) [0, 1, 2]) = (([0, 1, 2] : List Nat).drop (1 + 1)).reverse ∧
      (putMany (setMaxKeyCount (new Nat Nat) (2 : Int)) (fun _ => 5)
        (fun _ => 0) [0, 1, 2]).lru.length = 2 - 1) :=
  ⟨by decide, by decide, by decide, by decide,
   c1_bounded_insertions 2 1 (fun _ => 5) (fun _ => 0) [0, 1, 2]
     (by decide) (by decide) (by decide) (by decide)⟩

/-! Claim C9: single-flight coalescing under concurrency.

The concurrent execution of N Get calls on the same key is modelled as an
interleaving small-step system.  Each goroutine runs the code of Get
(gocache.go lines 109-118) followed by getData (lines 175-200); the atomic
steps are exactly the lock-delimited sections of the source: the read-locked
map lookup, the g.mu section that either registers a new call or picks up the
in-flight one, the loader invocation (outside any lock; it also records val
and ret in the call cell, line 190), the conditional Put (line 191-193), the
wg.Done (line 194), the g.mu-locked delete (lines 196-198), the final read of
the call cell (line 199), and a waiter blocking on wg.Wait (lines 182-183).
Call cells live in a heap (the calls list) because Go waiters keep a pointer
to the cell after it is deleted from the tracking map. -/

/-- One in-flight or completed call (the call struct, gocache.go lines 13-17):
result holds (val, ret) once the loader has returned, done models the
WaitGroup having been signalled. -/
structure CallCell (V : Type) where
  result : Option (V × Int)
  done : Bool
deriving DecidableEq

/-- Program counter of one goroutine executing Get on the shared key. -/
inductive GoState (V : Type) where
  | start
  | gcheck
  | ownerInvoke (idx : Nat)
  | ownerPut (idx : Nat)
  | ownerDone (idx : Nat)
  | ownerDelete (idx : Nat)
  | ownerReturn (idx : Nat)
  | waiter (idx : Nat)
  | returned (r : Option V × Int)
deriving DecidableEq

/-- Shared state: the cache, the coalescing map m (key to call index), the
call-cell heap, the goroutine states, the number of loader invocations so far,
and whether any delete of a tracking entry has happened yet. -/
structure Sys (K V : Type) where
  cache : Cache K V
  m : List (K × Nat)
  calls : List (CallCell V)
  gos : List (GoState V)
  counter : Nat
  deleted : Bool

variable [DecidableEq V]

/-- Execute one atomic step of goroutine i (all goroutines call Get on the
same key k).  A blocked waiter, a finished goroutine or an out-of-range index
leaves the state unchanged. -/
def step (k : K) (s : Sys K V) (i : Nat) : Sys K V :=
  match s.gos[i]? with
  | none => s
  | some g =>
    match g with
    | GoState.start =>
        match s.cache.lru.find? (fun e => e.key == k) with
        | some e =>
            { s with cache := (getHit s.cache k e 0 0).2.1,
                     gos := s.gos.set i (GoState.returned (getHit s.cache k e 0 0).1) }
        | none =>
            match s.cache.up with
            | some _ => { s with gos := s.gos.set i GoState.gcheck }
            | none => { s with gos := s.gos.set i (GoState.returned (none, -1)) }
    | GoState.gcheck =>
        match s.m.find? (fun p => p.1 == k) with
        | some p => { s with gos := s.gos.set i (GoState.waiter p.2) }
        | none =>
            { s with calls := s.calls ++ [⟨none, false⟩],
                     m := (k, s.calls.length) :: s.m,
                     gos := s.gos.set i (GoState.ownerInvoke s.calls.length) }
    | GoState.ownerInvoke idx =>
        match s.cache.up with
        | some f =>
            { s with calls := s.calls.set idx ⟨some (f k), false⟩,
                     counter := s.counter + 1,
                     gos := s.gos.set i (GoState.ownerPut idx) }
        | none => { s with gos := s.gos.set i (GoState.ownerPut idx) }
    | GoState.ownerPut idx =>
        match s.calls[idx]? with
        | some cell =>
            match cell.result with
            | some r =>
                { s with cache := if r.2 = 0 then put s.cache k r.1 0 else s.cache,
                         gos := s.gos.set i (GoState.ownerDone idx) }
            | none => { s with gos := s.gos.set i (GoState.ownerDone idx) }
        | none => { s with gos := s.gos.set i (GoState.ownerDone idx) }
    | GoState.ownerDone idx =>
        match s.calls[idx]? with
        | some cell =>
            { s with calls := s.calls.set idx { cell with done := true },
                     gos := s.gos.set i (GoState.ownerDelete idx) }
        | none => { s with gos := s.gos.set i (GoState.ownerDelete idx) }
    | GoState.ownerDelete idx =>
        { s with m := s.m.eraseP (fun p => p.1 == k), deleted := true,
                 gos := s.gos.set i (GoState.ownerReturn idx) }
    | GoState.ownerReturn idx =>
        match s.calls[idx]? with
        | some cell =>
            match cell.result with
            | some r => { s with gos := s.gos.set i (GoState.returned (some r.1, r.2)) }
            | none => s
        | none => s
    | GoState.waiter idx =>
        match s.calls[idx]? with
        | some cell =>
            if cell.done then
              match cell.result with
              | some r => { s with gos := s.gos.set i (GoState.returned (some r.1, r.2)) }
              | none => s
            else s
        | none => s
    | GoState.returned _ => s

/-- Run a schedule (a list of goroutine indices, each performing one atomic
step in order). -/
def runS (k : K) (s : Sys K V) : List Nat → Sys K V
  | [] => s
  | i :: rest => runS k (step k s i) rest

/-- A schedule is coalescing-respecting when no goroutine performs its
in-flight check (the g.mu-locked map lookup of getData) after some call has
already been removed from the tracking map. -/
def okaySched (k : K) (s : Sys K V) : List Nat → Bool
  | [] => true
  | i :: rest =>
      (!(s.gos[i]? == some GoState.gcheck) || !s.deleted) &&
        okaySched k (step k s i) rest

/-- All goroutines have completed their Get call. -/
def allReturned (s : Sys K V) : Bool :=
  s.gos.all (fun g => match g with
    | GoState.returned _ => true
    | _ => false)

/-- Initial state: a fresh cache with only the loader configured, key k absent,
no in-flight call, and N goroutines about to run Get k. -/
def initSys (k : K) (f : K → V × Int) (N : Nat) : Sys K V :=
  { cache := setUpFunc (new K V) f, m := [], calls := [],
    gos := List.replicate N GoState.start, counter := 0, deleted := false }

/-! The single-flight invariant: every reachable state of the system under a
coalescing-respecting schedule is in one of seven phases, ordered by the
progress of the unique owner goroutine. -/

/-- The scenario cache before any write-back: empty store, loader f. -/
def c9c0 (f : K → V × Int) : Cache K V := setUpFunc (new K V) f

/-- The scenario cache after the owner's conditional write-back. -/
def c9post (f : K → V × Int) (k : K) : Cache K V :=
  if (f k).2 = 0 then put (c9c0 f) k (f k).1 0 else c9c0 f

theorem c9c0_up (f : K → V × Int) : (c9c0 (K := K) f).up = some f := rfl

theorem c9post_up (f : K → V × Int) (k : K) : (c9post f k).up = some f := by
  unfold c9post
  split
  · rw [put_up]; rfl
  · rfl

theorem c9post_lru (f : K → V × Int) (k : K) :
    (c9post f k).lru = if (f k).2 = 0 then [⟨k, (f k).1, 0⟩] else [] := by
  unfold c9post
  split
  · rw [put_lru]
    unfold c9c0 evictIf
    rfl
  · rfl

theorem c9post_expire (f : K → V × Int) (k : K) : (c9post f k).expire = 0 := by
  unfold c9post
  split
  · rw [put_expire]; rfl
  · rfl

theorem c9post_max (f : K → V × Int) (k : K) : (c9post f k).maxKeyCount = 0 := by
  unfold c9post
  split
  · rw [put_maxKeyCount]; rfl
  · rfl

theorem c9post_find (f : K → V × Int) (k : K) :
    (c9post f k).lru.find? (fun e => e.key == k) =
      if (f k).2 = 0 then some ⟨k, (f k).1, 0⟩ else none := by
  rw [c9post_lru]
  split
  · simp
  · rfl

theorem getHit_c9post (f : K → V × Int) (k : K) :
    getHit (c9post f k) k ⟨k, (f k).1, 0⟩ 0 0 =
      ((some (f k).1, 0), c9post f k, false) := by
  unfold getHit
  rw [if_neg (fun hc => hc.1 (c9post_expire f k))]
  rw [if_neg (by rw [c9post_max]; decide)]

/-- The seven phases of the owner's progress through getData. -/
inductive Phase where
  | pA
  | pB
  | pC
  | pD
  | pE
  | pF
  | pG
deriving DecidableEq

open Phase

/-- Call-cell heap contents in each phase. -/
def callsOf (f : K → V × Int) (k : K) : Phase → List (CallCell V)
  | pA => []
  | pB => [⟨none, false⟩]
  | pC => [⟨some (f k), false⟩]
  | pD => [⟨some (f k), false⟩]
  | pE => [⟨some (f k), true⟩]
  | pF => [⟨some (f k), true⟩]
  | pG => [⟨some (f k), true⟩]

/-- Tracking-map contents in each phase. -/
def mOf (k : K) : Phase → List (K × Nat)
  | pA => []
  | pF => []
  | pG => []
  | _ => [(k, 0)]

/-- Loader invocation count in each phase. -/
def counterOf : Phase → Nat
  | pA => 0
  | pB => 0
  | _ => 1

/-- Cache contents in each phase. -/
def cacheOf (f : K → V × Int) (k : K) : Phase → Cache K V
  | pA => c9c0 f
  | pB => c9c0 f
  | pC => c9c0 f
  | _ => c9post f k

/-- Whether a tracking-map delete has happened in each phase. -/
def deletedOf : Phase → Bool
  | pF => true
  | pG => true
  | _ => false

/-- The owner goroutine state of each phase (none in pA and pG). -/
def ownerOf (V : Type) : Phase → Option (GoState V)
  | pA => none
  | pB => some (GoState.ownerInvoke 0)
  | pC => some (GoState.ownerPut 0)
  | pD => some (GoState.ownerDone 0)
  | pE => some (GoState.ownerDelete 0)
  | pF => some (GoState.ownerReturn 0)
  | pG => none

/-- Whether non-owner goroutines may be parked as waiters on cell 0. -/
def allowWaiter : Phase → Bool
  | pA => false
  | _ => true

/-- Whether non-owner goroutines may already have returned. -/
def allowRet : Phase → Bool
  | pA => false
  | pB => false
  | pC => false
  | _ => true

/-- The states a non-owner goroutine can be in during a phase. -/
def Rest (f : K → V × Int) (k : K) (ph : Phase) (g : GoState V) : Prop :=
  g = GoState.start ∨ g = GoState.gcheck ∨
  (allowWaiter ph = true ∧ g = GoState.waiter 0) ∨
  (allowRet ph = true ∧ g = GoState.returned (some (f k).1, (f k).2))

/-- Owner placement: either the phase has no owner and every goroutine is in a
Rest state, or exactly one index holds the owner state and all others Rest. -/
def OwnerPart (f : K → V × Int) (k : K) (ph : Phase) (gos : List (GoState V)) :
    Prop :=
  match ownerOf V ph with
  | none => ∀ g ∈ gos, Rest f k ph g
  | some o => ∃ j : Nat, gos[j]? = some o ∧
      ∀ (j2 : Nat) (g : GoState V), j2 ≠ j → gos[j2]? = some g → Rest f k ph g

/-- The single-flight invariant. -/
def Inv (k : K) (f : K → V × Int) (N : Nat) (s : Sys K V) : Prop :=
  ∃ ph : Phase, s.calls = callsOf f k ph ∧ s.m = mOf k ph ∧
    s.counter = counterOf ph ∧ s.cache = cacheOf f k ph ∧
    s.deleted = deletedOf ph ∧ s.gos.length = N ∧ OwnerPart f k ph s.gos

/-- Owner program counters, as a Boolean discriminator. -/
def isOwnerG : GoState V → Bool
  | GoState.ownerInvoke _ => true
  | GoState.ownerPut _ => true
  | GoState.ownerDone _ => true
  | GoState.ownerDelete _ => true
  | GoState.ownerReturn _ => true
  | _ => false

theorem Rest_not_ownerG {f : K → V × Int} {k : K} {ph : Phase} {g : GoState V}
    (h : Rest f k ph g) : isOwnerG g = false := by
  rcases h with rfl | rfl | ⟨_, rfl⟩ | ⟨_, rfl⟩ <;> rfl

theorem ownerOf_ownerG {ph : Phase} {o : GoState V}
    (h : ownerOf V ph = some o) : isOwnerG o = true := by
  cases ph <;> simp [ownerOf] at h <;> try rw [← h] <;> rfl

theorem Rest_mono {f : K → V × Int} {k : K} {ph ph2 : Phase} {g : GoState V}
    (h1 : allowWaiter ph = true → allowWaiter ph2 = true)
    (h2 : allowRet ph = true → allowRet ph2 = true)
    (h : Rest f k ph g) : Rest f k ph2 g := by
  rcases h with rfl | rfl | ⟨hw, rfl⟩ | ⟨hr, rfl⟩
  · exact Or.inl rfl
  · exact Or.inr (Or.inl rfl)
  · exact Or.inr (Or.inr (Or.inl ⟨h1 hw, rfl⟩))
  · exact Or.inr (Or.inr (Or.inr ⟨h2 hr, rfl⟩))

theorem lt_of_getElem?_some {l : List (GoState V)} {i : Nat} {g : GoState V}
    (h : l[i]? = some g) : i < l.length := by
  rw [List.getElem?_eq_some_iff] at h
  exact h.1

/-- Stepping a non-owner goroutine: replace its state by any ph2-Rest state,
while the owner slot (same in ph and ph2) is untouched. -/
theorem OwnerPart_set_nonowner {f : K → V × Int} {k : K} {ph ph2 : Phase}
    {gos : List (GoState V)} {i : Nat} {g x : GoState V}
    (h : OwnerPart f k ph gos) (hgi : gos[i]? = some g)
    (hno : isOwnerG g = false)
    (hx : Rest f k ph2 x)
    (hmono : ∀ g2, Rest f k ph g2 → Rest f k ph2 g2)
    (hsame : ownerOf V ph2 = ownerOf V ph) :
    OwnerPart f k ph2 (gos.set i x) := by
  unfold OwnerPart at h ⊢
  rw [hsame]
  cases ho : ownerOf V ph with
  | none =>
      rw [ho] at h
      intro g2 hg2
      rcases List.mem_or_eq_of_mem_set hg2 with h1 | h1
      · exact hmono g2 (h g2 h1)
      · rw [h1]; exact hx
  | some o =>
      rw [ho] at h
      obtain ⟨j, hj, hrest⟩ := h
      have hij : i ≠ j := by
        intro he
        rw [he, hj] at hgi
        injection hgi with hgi
        rw [← hgi] at hno
        rw [ownerOf_ownerG ho] at hno
        cases hno
      refine ⟨j, ?_, ?_⟩
      · rw [List.getElem?_set_ne hij]
        exact hj
      · intro j2 g2 hne hg2
        by_cases hji : j2 = i
        · subst hji
          rw [List.getElem?_set_self (lt_of_getElem?_some hgi)] at hg2
          injection hg2 with hg2
          rw [← hg2]
          exact hx
        · rw [List.getElem?_set_ne (fun he => hji he.symm)] at hg2
          exact hmono g2 (hrest j2 g2 hne hg2)

/-- Stepping the owner to its next owner state. -/
theorem OwnerPart_set_owner {f : K → V × Int} {k : K} {ph ph2 : Phase}
    {gos : List (GoState V)} {i : Nat} {o o2 : GoState V}
    (h : OwnerPart f k ph gos) (hgi : gos[i]? = some o)
    (ho : ownerOf V ph = some o)
    (ho2 : ownerOf V ph2 = some o2)
    (hmono : ∀ g2, Rest f k ph g2 → Rest f k ph2 g2) :
    OwnerPart f k ph2 (gos.set i o2) := by
  unfold OwnerPart at h ⊢
  rw [ho] at h
  obtain ⟨j, hj, hrest⟩ := h
  have hij : i = j := by
    by_contra hne
    have := Rest_not_ownerG (hrest i o hne hgi)
    rw [ownerOf_ownerG ho] at this
    cases this
  subst hij
  rw [ho2]
  refine ⟨i, ?_, ?_⟩
  · rw [List.getElem?_set_self (lt_of_getElem?_some hgi)]
  · intro j2 g2 hne hg2
    rw [List.getElem?_set_ne (fun he => hne he.symm)] at hg2
    exact hmono g2 (hrest j2 g2 hne hg2)

/-- Stepping the owner into a Rest state of an ownerless phase. -/
theorem OwnerPart_set_owner_to_rest {f : K → V × Int} {k : K} {ph ph2 : Phase}
    {gos : List (GoState V)} {i : Nat} {o x : GoState V}
    (h : OwnerPart f k ph gos) (hgi : gos[i]? = some o)
    (ho : ownerOf V ph = some o)
    (ho2 : ownerOf V ph2 = none)
    (hx : Rest f k ph2 x)
    (hmono : ∀ g2, Rest f k ph g2 → Rest f k ph2 g2) :
    OwnerPart f k ph2 (gos.set i x) := by
  unfold OwnerPart at h ⊢
  rw [ho] at h
  obtain ⟨j, hj, hrest⟩ := h
  have hij : i = j := by
    by_contra hne
    have := Rest_not_ownerG (hrest i o hne hgi)
    rw [ownerOf_ownerG ho] at this
    cases this
  subst hij
  rw [ho2]
  intro g2 hg2
  obtain ⟨n, hn⟩ := List.getElem_of_mem hg2
  have hn2 : (gos.set i x)[n]? = some g2 := by
    rw [List.getElem?_eq_some_iff]
    exact ⟨hn.1, hn.2⟩
  by_cases hni : n = i
  · subst hni
    rw [List.getElem?_set_self (lt_of_getElem?_some hgi)] at hn2
    injection hn2 with hn2
    rw [← hn2]
    exact hx
  · rw [List.getElem?_set_ne (fun he => hni he.symm)] at hn2
    exact hmono g2 (hrest n g2 hni hn2)

/-- Registering the owner from an ownerless phase (pA to pB). -/
theorem OwnerPart_register {f : K → V × Int} {k : K} {ph ph2 : Phase}
    {gos : List (GoState V)} {i : Nat} {g o2 : GoState V}
    (h : OwnerPart f k ph gos) (hgi : gos[i]? = some g)
    (ho : ownerOf V ph = none)
    (ho2 : ownerOf V ph2 = some o2)
    (hmono : ∀ g2, Rest f k ph g2 → Rest f k ph2 g2) :
    OwnerPart f k ph2 (gos.set i o2) := by
  unfold OwnerPart at h ⊢
  rw [ho] at h
  rw [ho2]
  refine ⟨i, ?_, ?_⟩
  · rw [List.getElem?_set_self (lt_of_getElem?_some hgi)]
  · intro j2 g2 hne hg2
    rw [List.getElem?_set_ne (fun he => hne he.symm)] at hg2
    exact hmono g2 (h g2 (List.getElem?_mem hg2))

theorem init_Inv (k : K) (f : K → V × Int) (N : Nat) :
    Inv k f N (initSys k f N) := by
  refine ⟨Phase.pA, rfl, rfl, rfl, rfl, rfl, List.length_replicate _ _, ?_⟩
  unfold OwnerPart
  dsimp [ownerOf, initSys]
  intro g hg
  rw [List.eq_of_mem_replicate hg]
  exact Or.inl rfl

theorem owner_at {f : K → V × Int} {k : K} {ph : Phase}
    {gos : List (GoState V)} {i : Nat} {g : GoState V}
    (hown : OwnerPart f k ph gos) (hgi : gos[i]? = some g)
    (hO : isOwnerG g = true) : ownerOf V ph = some g := by
  unfold OwnerPart at hown
  cases ho : ownerOf V ph with
  | none =>
      rw [ho] at hown
      have h2 := Rest_not_ownerG (hown g (List.getElem?_mem hgi))
      rw [hO] at h2
      cases h2
  | some o =>
      rw [ho] at hown
      obtain ⟨j, hj, hrest⟩ := hown
      by_cases hij : i = j
      · subst hij
        rw [hgi] at hj
        injection hj with hj
        rw [hj]
      · have h2 := Rest_not_ownerG (hrest i g hij hgi)
        rw [hO] at h2
        cases h2

theorem rest_of_nonowner {f : K → V × Int} {k : K} {ph : Phase}
    {gos : List (GoState V)} {i : Nat} {g : GoState V}
    (hown : OwnerPart f k ph gos) (hgi : gos[i]? = some g)
    (hO : isOwnerG g = false) : Rest f k ph g := by
  unfold OwnerPart at hown
  cases ho : ownerOf V ph with
  | none =>
      rw [ho] at hown
      exact hown g (List.getElem?_mem hgi)
  | some o =>
      rw [ho] at hown
      obtain ⟨j, hj, hrest⟩ := hown
      by_cases hij : i = j
      · subst hij
        rw [hgi] at hj
        injection hj with hj
        rw [hj] at hO
        rw [ownerOf_ownerG ho] at hO
        cases hO
      · exact hrest i g hij hgi

theorem inv_step (k : K) (f : K → V × Int) (N : Nat) (s : Sys K V) (i : Nat)
    (hInv : Inv k f N s)
    (hok : s.gos[i]? = some GoState.gcheck → s.deleted = false) :
    Inv k f N (step k s i) := by
  obtain ⟨ph, hcalls, hm, hctr, hcache, hdel, hlen, hown⟩ := hInv
  unfold step
  cases hgi : s.gos[i]? with
  | none => exact ⟨ph, hcalls, hm, hctr, hcache, hdel, hlen, hown⟩
  | some g =>
    cases g with
    | start =>
        dsimp only
        rw [hcache]
        cases ph with
        | pA =>
            dsimp [cacheOf, c9c0, setUpFunc, new, List.find?]
            refine ⟨pA, hcalls, hm, hctr, rfl, hdel, ?_, ?_⟩
            · show (s.gos.set i GoState.gcheck).length = N
              rw [List.length_set]; exact hlen
            · exact OwnerPart_set_nonowner hown hgi rfl (Or.inr (Or.inl rfl))
                (fun g2 h => h) rfl
        | pB =>
            dsimp [cacheOf, c9c0, setUpFunc, new, List.find?]
            refine ⟨pB, hcalls, hm, hctr, rfl, hdel, ?_, ?_⟩
            · show (s.gos.set i GoState.gcheck).length = N
              rw [List.length_set]; exact hlen
            · exact OwnerPart_set_nonowner hown hgi rfl (Or.inr (Or.inl rfl))
                (fun g2 h => h) rfl
        | pC =>
            dsimp [cacheOf, c9c0, setUpFunc, new, List.find?]
            refine ⟨pC, hcalls, hm, hctr, rfl, hdel, ?_, ?_⟩
            · show (s.gos.set i GoState.gcheck).length = N
              rw [List.length_set]; exact hlen
            · exact OwnerPart_set_nonowner hown hgi rfl (Or.inr (Or.inl rfl))
                (fun g2 h => h) rfl
        | pD =>
            dsimp only [cacheOf]
            rw [c9post_find]
            by_cases hf2 : (f k).2 = 0
            · rw [if_pos hf2]
              dsimp only
              rw [getHit_c9post]
              refine ⟨pD, hcalls, hm, hctr, rfl, hdel, ?_, ?_⟩
              · show (s.gos.set i _).length = N
                rw [List.length_set]; exact hlen
              · refine OwnerPart_set_nonowner hown hgi rfl ?_ (fun g2 h => h) rfl
                exact Or.inr (Or.inr (Or.inr ⟨rfl, by rw [hf2]⟩))
            · rw [if_neg hf2]
              dsimp only
              rw [c9post_up]
              dsimp only
              refine ⟨pD, hcalls, hm, hctr, rfl, hdel, ?_, ?_⟩
              · show (s.gos.set i GoState.gcheck).length = N
                rw [List.length_set]; exact hlen
              · exact OwnerPart_set_nonowner hown hgi rfl (Or.inr (Or.inl rfl))
                  (fun g2 h => h) rfl
        | pE =>
            dsimp only [cacheOf]
            rw [c9post_find]
            by_cases hf2 : (f k).2 = 0
            · rw [if_pos hf2]
              dsimp only
              rw [getHit_c9post]
              refine ⟨pE, hcalls, hm, hctr, rfl, hdel, ?_, ?_⟩
              · show (s.gos.set i _).length = N
                rw [List.length_set]; exact hlen
              · refine OwnerPart_set_nonowner hown hgi rfl ?_ (fun g2 h => h) rfl
                exact Or.inr (Or.inr (Or.inr ⟨rfl, by rw [hf2]⟩))
            · rw [if_neg hf2]
              dsimp only
              rw [c9post_up]
              dsimp only
              refine ⟨pE, hcalls, hm, hctr, rfl, hdel, ?_, ?_⟩
              · show (s.gos.set i GoState.gcheck).length = N
                rw [List.length_set]; exact hlen
              · exact OwnerPart_set_nonowner hown hgi rfl (Or.inr (Or.inl rfl))
                  (fun g2 h => h) rfl
        | pF =>
            dsimp only [cacheOf]
            rw [c9post_find]
            by_cases hf2 : (f k).2 = 0
            · rw [if_pos hf2]
              dsimp only
              rw [getHit_c9post]
              refine ⟨pF, hcalls, hm, hctr, rfl, hdel, ?_, ?_⟩
              · show (s.gos.set i _).length = N
                rw [List.length_set]; exact hlen
              · refine OwnerPart_set_nonowner hown hgi rfl ?_ (fun g2 h => h) rfl
                exact Or.inr (Or.inr (Or.inr ⟨rfl, by rw [hf2]⟩))
            · rw [if_neg hf2]
              dsimp only
              rw [c9post_up]
              dsimp only
              refine ⟨pF, hcalls, hm, hctr, rfl, hdel, ?_, ?_⟩
              · show (s.gos.set i GoState.gcheck).length = N
                rw [List.length_set]; exact hlen
              · exact OwnerPart_set_nonowner hown hgi rfl (Or.inr (Or.inl rfl))
                  (fun g2 h => h) rfl
        | pG =>
            dsimp only [cacheOf]
            rw [c9post_find]
            by_cases hf2 : (f k).2 = 0
            · rw [if_pos hf2]
              dsimp only
              rw [getHit_c9post]
              refine ⟨pG, hcalls, hm, hctr, rfl, hdel, ?_, ?_⟩
              · show (s.gos.set i _).length = N
                rw [List.length_set]; exact hlen
              · refine OwnerPart_set_nonowner hown hgi rfl ?_ (fun g2 h => h) rfl
                exact Or.inr (Or.inr (Or.inr ⟨rfl, by rw [hf2]⟩))
            · rw [if_neg hf2]
              dsimp only
              rw [c9post_up]
              dsimp only
              refine ⟨pG, hcalls, hm, hctr, rfl, hdel, ?_, ?_⟩
              · show (s.gos.set i GoState.gcheck).length = N
                rw [List.length_set]; exact hlen
              · exact OwnerPart_set_nonowner hown hgi rfl (Or.inr (Or.inl rfl))
                  (fun g2 h => h) rfl
    | gcheck =>
        have hdelF := hok hgi
        rw [hdel] at hdelF
        dsimp only
        rw [hm]
        cases ph with
        | pF => exact absurd hdelF (by decide)
        | pG => exact absurd hdelF (by decide)
        | pA =>
            dsimp [mOf, List.find?]
            have hc0 : s.calls.length = 0 := by rw [hcalls]; rfl
            rw [hc0]
            refine ⟨pB, ?_, rfl, ?_, hcache, hdel, ?_, ?_⟩
            · show s.calls ++ [⟨none, false⟩] = callsOf f k pB
              rw [hcalls]; rfl
            · exact hctr
            · show (s.gos.set i _).length = N
              rw [List.length_set]; exact hlen
            · exact OwnerPart_register hown hgi rfl rfl
                (fun g2 h => Rest_mono (by decide) (by decide) h)
        | pB =>
            dsimp only [mOf]
            rw [show (([(k, 0)] : List (K × Nat)).find? (fun p => p.1 == k)) =
              some (k, 0) by simp]
            dsimp only
            refine ⟨pB, hcalls, rfl, hctr, hcache, hdel, ?_, ?_⟩
            · show (s.gos.set i (GoState.waiter 0)).length = N
              rw [List.length_set]; exact hlen
            · exact OwnerPart_set_nonowner hown hgi rfl
                (Or.inr (Or.inr (Or.inl ⟨by decide, rfl⟩))) (fun g2 h => h) rfl
        | pC =>
            dsimp only [mOf]
            rw [show (([(k, 0)] : List (K × Nat)).find? (fun p => p.1 == k)) =
              some (k, 0) by simp]
            dsimp only
            refine ⟨pC, hcalls, rfl, hctr, hcache, hdel, ?_, ?_⟩
            · show (s.gos.set i (GoState.waiter 0)).length = N
              rw [List.length_set]; exact hlen
            · exact OwnerPart_set_nonowner hown hgi rfl
                (Or.inr (Or.inr (Or.inl ⟨by decide, rfl⟩))) (fun g2 h => h) rfl
        | pD =>
            dsimp only [mOf]
            rw [show (([(k, 0)] : List (K × Nat)).find? (fun p => p.1 == k)) =
              some (k, 0) by simp]
            dsimp only
            refine ⟨pD, hcalls, rfl, hctr, hcache, hdel, ?_, ?_⟩
            · show (s.gos.set i (GoState.waiter 0)).length = N
              rw [List.length_set]; exact hlen
            · exact OwnerPart_set_nonowner hown hgi rfl
                (Or.inr (Or.inr (Or.inl ⟨by decide, rfl⟩))) (fun g2 h => h) rfl
        | pE =>
            dsimp only [mOf]
            rw [show (([(k, 0)] : List (K × Nat)).find? (fun p => p.1 == k)) =
              some (k, 0) by simp]
            dsimp only
            refine ⟨pE, hcalls, rfl, hctr, hcache, hdel, ?_, ?_⟩
            · show (s.gos.set i (GoState.waiter 0)).length = N
              rw [List.length_set]; exact hlen
            · exact OwnerPart_set_nonowner hown hgi rfl
                (Or.inr (Or.inr (Or.inl ⟨by decide, rfl⟩))) (fun g2 h => h) rfl
    | ownerInvoke idx =>
        have hoat := owner_at hown hgi rfl
        cases ph with
        | pA => simp [ownerOf] at hoat
        | pC => simp [ownerOf] at hoat
        | pD => simp [ownerOf] at hoat
        | pE => simp [ownerOf] at hoat
        | pF => simp [ownerOf] at hoat
        | pG => simp [ownerOf] at hoat
        | pB =>
            have hidx : idx = 0 := by
              simp [ownerOf] at hoat
              omega
            subst hidx
            dsimp only
            rw [hcache]
            dsimp [cacheOf, c9c0, setUpFunc, new]
            refine ⟨pC, ?_, hm, ?_, rfl, hdel, ?_, ?_⟩
            · show s.calls.set 0 ⟨some (f k), false⟩ = callsOf f k pC
              rw [hcalls]; rfl
            · show s.counter + 1 = counterOf pC
              rw [hctr]
              rfl
            · show (s.gos.set i _).length = N
              rw [List.length_set]; exact hlen
            · exact OwnerPart_set_owner hown hgi rfl rfl
                (fun g2 h => Rest_mono (by decide) (by decide) h)
    | ownerPut idx =>
        have hoat := owner_at hown hgi rfl
        cases ph with
        | pA => simp [ownerOf] at hoat
        | pB => simp [ownerOf] at hoat
        | pD => simp [ownerOf] at hoat
        | pE => simp [ownerOf] at hoat
        | pF => simp [ownerOf] at hoat
        | pG => simp [ownerOf] at hoat
        | pC =>
            have hidx : idx = 0 := by
              simp [ownerOf] at hoat
              omega
            subst hidx
            dsimp only
            rw [hcalls]
            dsimp only [callsOf]
            simp only [List.getElem?_cons_zero]
            refine ⟨pD, rfl, hm, hctr, ?_, hdel, ?_, ?_⟩
            · show (if (f k).2 = 0 then put s.cache k (f k).1 0 else s.cache) =
                cacheOf f k pD
              rw [hcache]
              rfl
            · show (s.gos.set i _).length = N
              rw [List.length_set]; exact hlen
            · exact OwnerPart_set_owner hown hgi rfl rfl
                (fun g2 h => Rest_mono (by decide) (by decide) h)
    | ownerDone idx =>
        have hoat := owner_at hown hgi rfl
        cases ph with
        | pA => simp [ownerOf] at hoat
        | pB => simp [ownerOf] at hoat
        | pC => simp [ownerOf] at hoat
        | pE => simp [ownerOf] at hoat
        | pF => simp [ownerOf] at hoat
        | pG => simp [ownerOf] at hoat
        | pD =>
            have hidx : idx = 0 := by
              simp [ownerOf] at hoat
              omega
            subst hidx
            dsimp only
            rw [hcalls]
            dsimp only [callsOf]
            simp only [List.getElem?_cons_zero]
            refine ⟨pE, rfl, hm, hctr, hcache, hdel, ?_, ?_⟩
            · show (s.gos.set i _).length = N
              rw [List.length_set]; exact hlen
            · exact OwnerPart_set_owner hown hgi rfl rfl
                (fun g2 h => Rest_mono (by decide) (by decide) h)
    | ownerDelete idx =>
        have hoat := owner_at hown hgi rfl
        cases ph with
        | pA => simp [ownerOf] at hoat
        | pB => simp [ownerOf] at hoat
        | pC => simp [ownerOf] at hoat
        | pD => simp [ownerOf] at hoat
        | pF => simp [ownerOf] at hoat
        | pG => simp [ownerOf] at hoat
        | pE =>
            have hidx : idx = 0 := by
              simp [ownerOf] at hoat
              omega
            subst hidx
            dsimp only
            refine ⟨pF, hcalls, ?_, hctr, hcache, ?_, ?_, ?_⟩
            · show s.m.eraseP (fun p => p.1 == k) = mOf k pF
              rw [hm]
              simp [mOf]
            · rfl
            · show (s.gos.set i _).length = N
              rw [List.length_set]; exact hlen
            · exact OwnerPart_set_owner hown hgi rfl rfl
                (fun g2 h => Rest_mono (by decide) (by decide) h)
    | ownerReturn idx =>
        have hoat := owner_at hown hgi rfl
        cases ph with
        | pA => simp [ownerOf] at hoat
        | pB => simp [ownerOf] at hoat
        | pC => simp [ownerOf] at hoat
        | pD => simp [ownerOf] at hoat
        | pE => simp [ownerOf] at hoat
        | pG => simp [ownerOf] at hoat
        | pF =>
            have hidx : idx = 0 := by
              simp [ownerOf] at hoat
              omega
            subst hidx
            dsimp only
            rw [hcalls]
            dsimp only [callsOf]
            simp only [List.getElem?_cons_zero]
            refine ⟨pG, rfl, hm, hctr, hcache, hdel, ?_, ?_⟩
            · show (s.gos.set i _).length = N
              rw [List.length_set]; exact hlen
            · exact OwnerPart_set_owner_to_rest hown hgi rfl rfl
                (Or.inr (Or.inr (Or.inr ⟨rfl, rfl⟩)))
                (fun g2 h => Rest_mono (by decide) (by decide) h)
    | waiter idx =>
        have hr := rest_of_nonowner hown hgi rfl
        rcases hr with h | h | ⟨hw, h⟩ | ⟨hrt, h⟩
        · exact GoState.noConfusion h
        · exact GoState.noConfusion h
        · injection h with h
          subst h
          dsimp only
          rw [hcalls]
          cases ph with
          | pA => exact absurd hw (by decide)
          | pB =>
              dsimp only [callsOf]
              simp only [List.getElem?_cons_zero]
              split
              · next hcon => simp at hcon
              · exact ⟨pB, hcalls, hm, hctr, hcache, hdel, hlen, hown⟩
          | pC =>
              dsimp only [callsOf]
              simp only [List.getElem?_cons_zero]
              split
              · next hcon => simp at hcon
              · exact ⟨pC, hcalls, hm, hctr, hcache, hdel, hlen, hown⟩
          | pD =>
              dsimp only [callsOf]
              simp only [List.getElem?_cons_zero]
              split
              · next hcon => simp at hcon
              · exact ⟨pD, hcalls, hm, hctr, hcache, hdel, hlen, hown⟩
          | pE =>
              dsimp only [callsOf]
              simp only [List.getElem?_cons_zero]
              split
              · next =>
                  refine ⟨pE, rfl, hm, hctr, hcache, hdel, ?_, ?_⟩
                  · show (s.gos.set i _).length = N
                    rw [List.length_set]; exact hlen
                  · exact OwnerPart_set_nonowner hown hgi rfl
                      (Or.inr (Or.inr (Or.inr ⟨by decide, rfl⟩)))
                      (fun g2 h2 => h2) rfl
              · next hcon => simp at hcon
          | pF =>
              dsimp only [callsOf]
              simp only [List.getElem?_cons_zero]
              split
              · next =>
                  refine ⟨pF, rfl, hm, hctr, hcache, hdel, ?_, ?_⟩
                  · show (s.gos.set i _).length = N
                    rw [List.length_set]; exact hlen
                  · exact OwnerPart_set_nonowner hown hgi rfl
                      (Or.inr (Or.inr (Or.inr ⟨by decide, rfl⟩)))
                      (fun g2 h2 => h2) rfl
              · next hcon => simp at hcon
          | pG =>
              dsimp only [callsOf]
              simp only [List.getElem?_cons_zero]
              split
              · next =>
                  refine ⟨pG, rfl, hm, hctr, hcache, hdel, ?_, ?_⟩
                  · show (s.gos.set i _).length = N
                    rw [List.length_set]; exact hlen
                  · exact OwnerPart_set_nonowner hown hgi rfl
                      (Or.inr (Or.inr (Or.inr ⟨by decide, rfl⟩)))
                      (fun g2 h2 => h2) rfl
              · next hcon => simp at hcon
        · exact GoState.noConfusion h
    | returned r =>
        exact ⟨ph, hcalls, hm, hctr, hcache, hdel, hlen, hown⟩

theorem inv_runS (k : K) (f : K → V × Int) (N : Nat) :
    ∀ (sched : List Nat) (s : Sys K V), Inv k f N s →
      okaySched k s sched = true → Inv k f N (runS k s sched) := by
  intro sched
  induction sched with
  | nil => intro s hInv _; exact hInv
  | cons i rest ih =>
      intro s hInv hok
      have hok2 : ((!(s.gos[i]? == some GoState.gcheck) || !s.deleted) = true) ∧
          okaySched k (step k s i) rest = true := by
        simpa [okaySched, Bool.and_eq_true] using hok
      refine ih (step k s i) (inv_step k f N s i hInv ?_) hok2.2
      intro hgi
      have h1 := hok2.1
      rw [hgi] at h1
      simpa using h1

theorem inv_final (k : K) (f : K → V × Int) (N : Nat) (s : Sys K V)
    (hInv : Inv k f N s) (hall : allReturned s = true) (hN : 0 < N) :
    s.counter = 1 ∧
    s.gos = List.replicate N (GoState.returned (some (f k).1, (f k).2)) := by
  obtain ⟨ph, hcalls, hm, hctr, hcache, hdel, hlen, hown⟩ := hInv
  have hret : ∀ g ∈ s.gos, ∃ r, g = GoState.returned r := by
    intro g hg
    have h2 := List.all_eq_true.mp hall g hg
    cases g with
    | returned r => exact ⟨r, rfl⟩
    | start => exact Bool.noConfusion h2
    | gcheck => exact Bool.noConfusion h2
    | ownerInvoke idx => exact Bool.noConfusion h2
    | ownerPut idx => exact Bool.noConfusion h2
    | ownerDone idx => exact Bool.noConfusion h2
    | ownerDelete idx => exact Bool.noConfusion h2
    | ownerReturn idx => exact Bool.noConfusion h2
    | waiter idx => exact Bool.noConfusion h2
  cases ph with
  | pB =>
      unfold OwnerPart at hown
      obtain ⟨j, hj, _⟩ := hown
      obtain ⟨r, hr⟩ := hret _ (List.getElem?_mem hj)
      exact GoState.noConfusion hr
  | pC =>
      unfold OwnerPart at hown
      obtain ⟨j, hj, _⟩ := hown
      obtain ⟨r, hr⟩ := hret _ (List.getElem?_mem hj)
      exact GoState.noConfusion hr
  | pD =>
      unfold OwnerPart at hown
      obtain ⟨j, hj, _⟩ := hown
      obtain ⟨r, hr⟩ := hret _ (List.getElem?_mem hj)
      exact GoState.noConfusion hr
  | pE =>
      unfold OwnerPart at hown
      obtain ⟨j, hj, _⟩ := hown
      obtain ⟨r, hr⟩ := hret _ (List.getElem?_mem hj)
      exact GoState.noConfusion hr
  | pF =>
      unfold OwnerPart at hown
      obtain ⟨j, hj, _⟩ := hown
      obtain ⟨r, hr⟩ := hret _ (List.getElem?_mem hj)
      exact GoState.noConfusion hr
  | pA =>
      unfold OwnerPart at hown
      cases hgos : s.gos with
      | nil => rw [hgos] at hlen; rw [← hlen] at hN; simp at hN
      | cons g gs =>
          have hg : g ∈ s.gos := by rw [hgos]; exact List.mem_cons_self _ _
          have hrg := hown g hg
          obtain ⟨r, hr⟩ := hret g hg
          rcases hrg with h | h | ⟨hw, h⟩ | ⟨hrt, h⟩
          · rw [h] at hr; exact GoState.noConfusion hr
          · rw [h] at hr; exact GoState.noConfusion hr
          · exact absurd hw (by decide)
          · exact absurd hrt (by decide)
  | pG =>
      refine ⟨hctr, ?_⟩
      rw [List.eq_replicate_iff]
      refine ⟨hlen, ?_⟩
      intro g hg
      unfold OwnerPart at hown
      have hrg := hown g hg
      obtain ⟨r, hr⟩ := hret g hg
      rcases hrg with h | h | ⟨hw, h⟩ | ⟨hrt, h⟩
      · rw [h] at hr; exact GoState.noConfusion hr
      · rw [h] at hr; exact GoState.noConfusion hr
      · rw [h] at hr; exact GoState.noConfusion hr
      · exact h

/-- C9 (amended): starting from a cache with no entry for key k, a loader f
and no load in flight, run N ≥ 1 concurrent Get(k) calls under any
interleaving in which every call's coalescing-map check happens before the
single registered LoadCall is removed from tracking (okaySched).  If all N
calls complete, the loader was invoked exactly once and every call returned
the identical pair captured from that single invocation.  (Without the
schedule restriction the guarantee fails: see the counterexample, where one
call checks the map after the winner already deleted its LoadCall and starts
a second load.) -/
theorem c9_single_flight_coalesced (k : K) (f : K → V × Int) (N : Nat)
    (sched : List Nat)
    (hok : okaySched k (initSys k f N) sched = true)
    (hall : allReturned (runS k (initSys k f N) sched) = true)
    (hN : 0 < N) :
    (runS k (initSys k f N) sched).counter = 1 ∧
    (runS k (initSys k f N) sched).gos =
      List.replicate N (GoState.returned (some (f k).1, (f k).2)) :=
  inv_final k f N _ (inv_runS k f N sched (initSys k f N) (init_Inv k f N) hok)
    hall hN

/-- The loader and the two schedules of the C9 counterexample and witness. -/
def c9wF : Nat → Nat × Int := fun _ => (7, 0)

/-- A schedule in which goroutine 1 misses the cache before goroutine 0's
write-back but consults the coalescing map only after goroutine 0 has deleted
its LoadCall: both goroutines then invoke the loader. -/
def c9xSched : List Nat := [1, 0, 0, 0, 0, 0, 0, 0, 1, 1, 1, 1, 1, 1]

/-- Counterexample to C9 as stated: for 2 concurrent Get calls on the same
absent key with a loader configured and no load in flight at the start, the
schedule c9xSched completes both calls yet invokes the loader twice — the
single-flight guarantee does not hold for every interleaving, because a
goroutine whose coalescing-map check runs after the winner's delete registers
a fresh LoadCall (gocache.go lines 180, 196-198). -/
theorem c9_counterexample :
    allReturned (runS 0 (initSys 0 c9wF 2) c9xSched) = true ∧
    (runS 0 (initSys 0 c9wF 2) c9xSched).counter = 2 ∧
    (2 : Nat) ≠ 1 :=
  ⟨by decide, by decide, by decide⟩

/-- A coalescing-respecting schedule: both goroutines miss and check the map
while the call is registered; goroutine 1 waits and is released after the
owner's Done. -/
def c9wSched : List Nat := [0, 0, 1, 1, 0, 0, 0, 1, 0, 0]

theorem c9_witness :
    okaySched 0 (initSys 0 c9wF 2) c9wSched = true ∧
    allReturned (runS 0 (initSys 0 c9wF 2) c9wSched) = true ∧
    0 < 2 ∧
    ((runS 0 (initSys 0 c9wF 2) c9wSched).counter = 1 ∧
      (runS 0 (initSys 0 c9wF 2) c9wSched).gos =
        List.replicate 2 (GoState.returned (some 7, 0))) :=
  ⟨by decide, by decide, by decide,
   c9_single_flight_coalesced 0 c9wF 2 c9wSched (by decide) (by decide)
     (by decide)⟩

end GoCache
